import Mathlib

/-!
Shallow embedding of `services/controllerhost/placement.go` (cherami-server).

The Go file implements the host placement engine: eligibility filtering of
store hosts, distance-constrained selection through an external topology
service, and a round-robin fairness cull backed by a process-global counter
map.  External collaborators (registry, topology map, config store, metrics
store) are modelled as function-valued fields of an `Env` record; the
process-global `rrMap` is threaded explicitly as a `RRMap` value.  Go's
`(result, error)` convention (every error path returns a `nil` result) is
embedded as a sum type `Outcome`; `log.Panic` sites are the `panic` arm.
Calls to the topology service and to registry address resolution are recorded
in an `Event` trace so that claims about "which distance queries are issued"
are statable.
-/

namespace Placement

/-- Host record (`common.HostInfo`): UUID, display name, `host:port` address
and hardware SKU — the four fields read by `placement.go`. -/
structure HostInfo where
  uuid : String
  name : String
  addr : String
  sku  : String
  deriving DecidableEq

/-- Per-host placement configuration (`StorePlacementConfig`): administrative
status and the minimum-free-disk-space threshold. -/
structure StorePlacementConfig where
  adminStatus : String
  minFreeDiskSpaceBytes : Int
  deriving DecidableEq

/-- The controller configuration distance getters used by `placement.go`
(`GetMinInputToStoreDistance` …).  The Go values are `uint16`. -/
structure ControllerConfig where
  minInputToStoreDistance : Nat
  maxInputToStoreDistance : Nat
  minInputToStoreFallbackDistance : Nat
  maxInputToStoreFallbackDistance : Nat
  minOutputToStoreDistance : Nat
  maxOutputToStoreDistance : Nat
  minOutputToStoreFallbackDistance : Nat
  maxOutputToStoreFallbackDistance : Nat
  minStoreToStoreDistance : Nat
  maxStoreToStoreDistance : Nat
  minStoreToStoreFallbackDistance : Nat
  maxStoreToStoreFallbackDistance : Nat
  deriving DecidableEq

/-- The topology distance map (`distance.Map`), reduced to the one method the
source calls: `FindResources(pool, source, resourceType, count, min, max)`. -/
structure DistMap where
  findResources : List String → List String → String → Nat → Nat → Nat →
    Except String (List String)

/-- Placement errors (`errNoHosts`, `errNoInputHosts`, `errNoOutputHosts`,
`errNoStoreHosts`) plus collaborator errors propagated verbatim. -/
inductive Err where
  | collab (msg : String)
  | noHosts
  | noInputHosts
  | noOutputHosts
  | noStoreHosts
  deriving DecidableEq

/-- Result of a Go `(value, error)` call that may also `log.Panic`:
every error return in the source returns a `nil` result alongside the error,
which this sum type captures. -/
inductive Outcome (α : Type) where
  | ok (a : α)
  | err (e : Err)
  | panic (msg : String)
  deriving DecidableEq

/-- Observable calls to external services: a topology distance query
(`distMap.FindResources`) or a registry address resolution
(`rpm.FindHostForAddr`). -/
inductive Event where
  | query (pool source : List String) (cls : String) (count minD maxD : Nat)
  | resolve (service addr : String)
  deriving DecidableEq

/-- The process-global round-robin counter map `rrMap`; a missing key reads
as 0 (Go map semantics), and values only ever grow by increments from that
zero default, so `Nat` represents every reachable counter value. -/
abbrev RRMap : Type := String → Nat

/-- The placement context: the optional topology map plus the external
collaborators reached through `p.context` (registry, config manager,
load metrics, controller config). -/
structure Env where
  distMap : Option DistMap
  rpmGetHosts : String → Except String (List HostInfo)
  rpmFindHostForAddr : String → String → Except String HostInfo
  cfgGet : String → String → String → String → Except String StorePlacementConfig
  loadGet : String → String → String → String → Except String Int
  cfg : ControllerConfig

/-- Modelled from the spec: the registry role name for input hosts
(`common.InputServiceName`, declared outside this source file).  The value is
an opaque label. -/
def InputServiceName : String := "cherami-inputhost"

/-- Modelled from the spec: the registry role name for output hosts
(`common.OutputServiceName`). -/
def OutputServiceName : String := "cherami-outputhost"

/-- Modelled from the spec: the registry role name for store hosts
(`common.StoreServiceName`). -/
def StoreServiceName : String := "cherami-storehost"

/-- Modelled from the spec: `distance.ZeroDistance`, the sentinel for
"same physical resource" exposed by the topology service. -/
def ZeroDistance : Nat := 0

/-- Modelled from the spec: `distance.InfiniteDistance`, the sentinel for
"infinite distance" — the largest representable `uint16` distance. -/
def InfiniteDistance : Nat := 65535

/-- Modelled from the spec: the fixed metric key arguments of the
free-disk-space lookup (`load.EmptyTag`, `load.RemDiskSpaceBytes`,
`load.OneMinAvg`); opaque labels. -/
def EmptyTag : String := ""

/-- Modelled from the spec: see `EmptyTag`. -/
def RemDiskSpaceBytes : String := "remDiskSpaceBytes"

/-- Modelled from the spec: see `EmptyTag`. -/
def OneMinAvg : String := "oneMinAvg"

/-- `int(math.MaxInt32)`, the sentinel initial minimum in `roundRobinCull`. -/
def maxInt32 : Nat := 2147483647

/-- Split a character list at every occurrence of `sep` (the semantics of
Go `strings.Split` with a one-character separator: every string yields at
least one part, and an empty input yields `[[]]`). -/
def splitOnChar (sep : Char) : List Char → List (List Char)
  | [] => [[]]
  | c :: rest =>
    if c = sep then [] :: splitOnChar sep rest
    else
      match splitOnChar sep rest with
      | [] => [[c]]
      | g :: gs => (c :: g) :: gs

/-- `strings.Split(s, ":")`. -/
def splitOnColon (s : String) : List String :=
  (splitOnChar ':' s.data).map String.mk

/-- Digit value of a character, if it is a decimal digit. -/
def digit? (c : Char) : Option Nat :=
  if 48 ≤ c.toNat ∧ c.toNat ≤ 57 then some (c.toNat - 48) else none

/-- Value of a nonempty all-digit character list. -/
def charsToNat? : List Char → Option Nat
  | [] => none
  | l => charsToNatAux l 0
where
  charsToNatAux : List Char → Nat → Option Nat
    | [], acc => some acc
    | c :: rest, acc =>
      match digit? c with
      | none => none
      | some d => charsToNatAux rest (acc * 10 + d)

/-- `strconv.Atoi`: optional sign followed by decimal digits (64-bit range
overflow is not modelled; the parsed values are ports). -/
def atoi? (s : String) : Option Int :=
  match s.data with
  | '-' :: rest => (charsToNat? rest).map (fun n => -(n : Int))
  | '+' :: rest => (charsToNat? rest).map (fun n => (n : Int))
  | l => (charsToNat? l).map (fun n => (n : Int))

/-- `toResources`: project each host to `strings.Split(host.Addr, ":")[0]`
(`Split` always returns at least one part, so index 0 is total). -/
def toResources (hosts : List HostInfo) : List String :=
  hosts.map (fun host => (splitOnColon host.addr).headD "")

/-- Go map write `m[k] = v`: replace the binding if the key is present,
append it otherwise. -/
def mapSet (m : List (String × Int)) (k : String) (v : Int) : List (String × Int) :=
  if m.any (fun kv => kv.1 = k) then
    m.map (fun kv => if kv.1 = k then (k, v) else kv)
  else m ++ [(k, v)]

/-- Go map read `m[k]` with presence flag. -/
def mapGet (m : List (String × Int)) (k : String) : Option Int :=
  (m.find? (fun kv => kv.1 = k)).map (fun kv => kv.2)

/-- The `hostPortMap` construction loop in `pickHosts`.  Its only failure
mode is `log.Panic` (malformed `host:port` address or unparsable port), so
the `Except` error carries the panic message. -/
def buildHostPortMapAux : List HostInfo → List (String × Int) → Except String (List (String × Int))
  | [], acc => .ok acc
  | host :: rest, acc =>
    let hostPort := splitOnColon host.addr
    if hostPort.length ≠ 2 then .error "Invalid host:port"
    else
      match atoi? (hostPort.getD 1 "") with
      | none => .error "Invalid port"
      | some port => buildHostPortMapAux rest (mapSet acc (hostPort.headD "") port)

/-- See `buildHostPortMapAux`. -/
def buildHostPortMap (hosts : List HostInfo) : Except String (List (String × Int)) :=
  buildHostPortMapAux hosts []

/-- The resolution loop at the end of `pickHosts`: each resource is looked up
in `hostPortMap` (`log.Panic` if absent) and resolved through
`rpm.FindHostForAddr(service, "resource:port")`; the first resolution error
aborts the whole selection. -/
def resolveAll (p : Env) (service : String) (m : List (String × Int)) :
    List String → Outcome (List HostInfo) × List Event
  | [] => (.ok [], [])
  | r :: rest =>
    match mapGet m r with
    | none => (.panic "Invalid resource", [])
    | some port =>
      let addr := r ++ ":" ++ toString port
      match p.rpmFindHostForAddr service addr with
      | .error e => (.err (.collab e), [.resolve service addr])
      | .ok host =>
        match resolveAll p service m rest with
        | (.ok hosts, evs) => (.ok (host :: hosts), .resolve service addr :: evs)
        | (.err e, evs) => (.err e, .resolve service addr :: evs)
        | (.panic s, evs) => (.panic s, .resolve service addr :: evs)

/-- `pickHosts`: with no topology map configured it returns
`poolHosts[:count]` (a Go slice expression that panics when `count` exceeds
the slice's extent); otherwise it projects hosts to resources, builds the
port map, issues exactly one `FindResources` query and resolves the returned
resources back to hosts. -/
def pickHosts (p : Env) (service : String) (poolHosts sourceHosts : List HostInfo)
    (count : Nat) (minDistance maxDistance : Nat) : Outcome (List HostInfo) × List Event :=
  match p.distMap with
  | none =>
    if count ≤ poolHosts.length then (.ok (poolHosts.take count), [])
    else (.panic "slice bounds out of range", [])
  | some dm =>
    let sourceResources := toResources sourceHosts
    let poolResources := toResources poolHosts
    match buildHostPortMap poolHosts with
    | .error s => (.panic s, [])
    | .ok hostPortMap =>
      match dm.findResources poolResources sourceResources "nic" count minDistance maxDistance with
      | .error e =>
        (.err (.collab e), [.query poolResources sourceResources "nic" count minDistance maxDistance])
      | .ok resources =>
        let r := resolveAll p service hostPortMap resources
        (r.1, .query poolResources sourceResources "nic" count minDistance maxDistance :: r.2)

/-- The `findCurrentMinimum` scan of `roundRobinCull`: minimum counter over
the non-nil entries, starting from `int(math.MaxInt32)`, with an early break
once the running minimum reaches 0. -/
def findCurrentMinimum (rr : RRMap) : List (Option HostInfo) → Nat → Nat
  | [], mn => mn
  | none :: rest, mn => findCurrentMinimum rr rest mn
  | some hi :: rest, mn =>
    let mn1 := if mn > rr hi.uuid then rr hi.uuid else mn
    if mn1 = 0 then mn1 else findCurrentMinimum rr rest mn1

/-- The `addMinimums` scan of `roundRobinCull`: append every non-nil entry
whose counter equals `mn` to `out` (clearing its slot to `nil`), stopping
early the moment `out` reaches `count`. -/
def addMinimums (rr : RRMap) (mn count : Nat) :
    List (Option HostInfo) → List HostInfo → List HostInfo × List (Option HostInfo)
  | [], out => (out, [])
  | none :: rest, out =>
    let r := addMinimums rr mn count rest out
    (r.1, none :: r.2)
  | some hi :: rest, out =>
    if rr hi.uuid = mn then
      let out1 := out ++ [hi]
      if out1.length = count then (out1, none :: rest)
      else
        let r := addMinimums rr mn count rest out1
        (r.1, none :: r.2)
    else
      let r := addMinimums rr mn count rest out
      (r.1, some hi :: r.2)

/-- Number of non-nil entries of the candidate slice. -/
def countSome (l : List (Option HostInfo)) : Nat := (l.filterMap id).length

/-- The outer `findNextMinimum` loop of `roundRobinCull`.  Each iteration
either terminates (team complete, or the minimum scan saw no finite counter)
or clears at least one non-nil slot, so `countSome l + 1` rounds of fuel make
the fuel parameter inert (`cullLoopAux_step` below proves the Go loop's
recurrence for the fuelled form). -/
def cullLoopAux (rr : RRMap) (count : Nat) :
    Nat → List (Option HostInfo) → List HostInfo → List HostInfo × List (Option HostInfo)
  | 0, l, out => (out, l)
  | fuel + 1, l, out =>
    let mn := findCurrentMinimum rr l maxInt32
    let r := addMinimums rr mn count l out
    if r.1.length = count ∨ mn = maxInt32 then (r.1, r.2)
    else cullLoopAux rr count fuel r.2 r.1

/-- `roundRobinCull`: run the loop; if the team is short, log and return an
empty slice with the counters untouched, otherwise increment the counter of
every selected host and return the team.  The returned triple is
(output, mutated input slice, updated global counter map). -/
def roundRobinCull (rr : RRMap) (l : List (Option HostInfo)) (count : Nat) :
    List HostInfo × List (Option HostInfo) × RRMap :=
  let r := cullLoopAux rr count (countSome l + 1) l []
  if r.1.length ≠ count then ([], r.2, rr)
  else (r.1, r.2, r.1.foldl (fun m hi => fun u => if u = hi.uuid then m u + 1 else m u) rr)

/-- `pickHostsWithFallback`: fetch all live hosts of the role and fairness-cull
one of them.  The normalized `maxDistance` is computed but never used, and the
`minFallback`, `maxFallback` and `storeHosts` parameters are never read — as
in the source. -/
def pickHostsWithFallback (p : Env) (rr : RRMap) (service : String)
    (minDistance maxDistance minFallback maxFallback : Nat)
    (storeHosts : List HostInfo) : Except Err HostInfo × RRMap :=
  match p.rpmGetHosts service with
  | .ok hosts =>
    let _maxDistance := if maxDistance ≤ minDistance then InfiniteDistance else maxDistance
    match roundRobinCull rr (hosts.map some) 1 with
    | ([c], _, rr1) => (.ok c, rr1)
    | (_, _, rr1) => (.error .noHosts, rr1)
  | .error _ => (.error .noHosts, rr)

/-- `PickInputHost`: `pickHostsWithFallback` on the input role with the
configured input distance band; any error becomes `errNoInputHosts`. -/
def PickInputHost (p : Env) (rr : RRMap) (storeHosts : List HostInfo) :
    Except Err HostInfo × RRMap :=
  match pickHostsWithFallback p rr InputServiceName
      p.cfg.minInputToStoreDistance p.cfg.maxInputToStoreDistance
      p.cfg.minInputToStoreFallbackDistance p.cfg.maxInputToStoreFallbackDistance
      storeHosts with
  | (.ok host, rr1) => (.ok host, rr1)
  | (.error _, rr1) => (.error .noInputHosts, rr1)

/-- `PickOutputHost`: as `PickInputHost`, for the output role. -/
def PickOutputHost (p : Env) (rr : RRMap) (storeHosts : List HostInfo) :
    Except Err HostInfo × RRMap :=
  match pickHostsWithFallback p rr OutputServiceName
      p.cfg.minOutputToStoreDistance p.cfg.maxOutputToStoreDistance
      p.cfg.minOutputToStoreFallbackDistance p.cfg.maxOutputToStoreFallbackDistance
      storeHosts with
  | (.ok host, rr1) => (.ok host, rr1)
  | (.error _, rr1) => (.error .noOutputHosts, rr1)

/-- `doesStoreMeetConstraints`: eligible when the config lookup fails;
ineligible when the administrative status is not "enabled"; eligible when the
metrics lookup fails; ineligible when the reported free space is at most the
configured minimum. -/
def doesStoreMeetConstraints (p : Env) (host : HostInfo) : Bool :=
  match p.cfgGet StoreServiceName "*" host.sku host.name with
  | .error _ => true
  | .ok cfg =>
    if cfg.adminStatus ≠ "enabled" then false
    else
      match p.loadGet host.uuid EmptyTag RemDiskSpaceBytes OneMinAvg with
      | .error _ => true
      | .ok val => if val ≤ cfg.minFreeDiskSpaceBytes then false else true

/-- `findEligibleStoreHosts`: all live store hosts filtered by
`doesStoreMeetConstraints`; a registry failure is propagated, an empty
eligible set is `errNoStoreHosts`. -/
def findEligibleStoreHosts (p : Env) : Except Err (List HostInfo) :=
  match p.rpmGetHosts StoreServiceName with
  | .error e => .error (.collab e)
  | .ok storeHosts =>
    let result := storeHosts.filter (fun h => doesStoreMeetConstraints p h)
    if result.length = 0 then .error .noStoreHosts else .ok result

/-- The tail of `PickStoreHosts`: fairness-cull `count` hosts from the
eligible pool; a full team is returned, a short team is `errNoStoreHosts`. -/
def cullFinish (rr : RRMap) (storeHosts : List HostInfo) (count : Nat)
    (evs : List Event) : Outcome (List HostInfo) × RRMap × List Event :=
  let r := roundRobinCull rr (storeHosts.map some) count
  if r.1.length = count then (.ok r.1, r.2.2, evs) else (.err .noStoreHosts, r.2.2, evs)

/-- The lower-bound normalization of the store-to-store band in
`PickStoreHosts`: `if minDistance <= distance.ZeroDistance { minDistance =
distance.ZeroDistance + 1 }`. -/
def normalizeMin (m : Nat) : Nat :=
  if m ≤ ZeroDistance then ZeroDistance + 1 else m

/-- The upper-bound normalization of the store-to-store band in
`PickStoreHosts` (applied after the lower bound): `if maxDistance <=
minDistance { maxDistance = distance.InfiniteDistance }`. -/
def normalizeMax (mn mx : Nat) : Nat :=
  if mx ≤ mn then InfiniteDistance else mx

/-- `PickStoreHosts`: eligible pool, shortfall check, normalized primary
distance attempt, conditionally one normalized fallback attempt, then the
fairness cull; every failure path returns a `nil` host list. -/
def PickStoreHosts (p : Env) (rr : RRMap) (count : Nat) :
    Outcome (List HostInfo) × RRMap × List Event :=
  match findEligibleStoreHosts p with
  | .error _ => (.err .noStoreHosts, rr, [])
  | .ok storeHosts =>
    if storeHosts.length < count then (.err .noHosts, rr, [])
    else
      let minDistance := normalizeMin p.cfg.minStoreToStoreDistance
      let maxDistance := normalizeMax minDistance p.cfg.maxStoreToStoreDistance
      match pickHosts p StoreServiceName storeHosts [] count minDistance maxDistance with
      | (.ok hosts, ev1) => (.ok hosts, rr, ev1)
      | (.panic s, ev1) => (.panic s, rr, ev1)
      | (.err _, ev1) =>
        let minFallback := p.cfg.minStoreToStoreFallbackDistance
        let maxFallback := p.cfg.maxStoreToStoreFallbackDistance
        if minFallback < minDistance ∨ maxFallback > maxDistance then
          let minFallback1 := normalizeMin minFallback
          let maxFallback1 := normalizeMax minFallback1 maxFallback
          match pickHosts p StoreServiceName storeHosts [] count minFallback1 maxFallback1 with
          | (.ok hosts, ev2) => (.ok hosts, rr, ev1 ++ ev2)
          | (.panic s, ev2) => (.panic s, rr, ev1 ++ ev2)
          | (.err _, ev2) => cullFinish rr storeHosts count (ev1 ++ ev2)
        else cullFinish rr storeHosts count ev1

/-! ### Specification-side definitions

These definitions follow the spec's words (not the source) and exist to be
compared with the embedded source functions in refinement-style claims. -/

/-- Modelled from the spec: "the implementation falls through directly to
fairness culling of all currently live hosts of the target role, count = 1",
failing with the role-specific error when the registry lookup fails or the
cull cannot produce one host. -/
def specFairnessPickOne (p : Env) (rr : RRMap) (service : String) (roleErr : Err) :
    Except Err HostInfo × RRMap :=
  match p.rpmGetHosts service with
  | .error _ => (.error roleErr, rr)
  | .ok hosts =>
    match roundRobinCull rr (hosts.map some) 1 with
    | ([c], _, rr1) => (.ok c, rr1)
    | (_, _, rr1) => (.error roleErr, rr1)

/-- Minimum counter over the nonempty pool `h :: t`. -/
def minCounter (rr : RRMap) (h : HostInfo) (t : List HostInfo) : Nat :=
  t.foldl (fun m x => Nat.min m (rr x.uuid)) (rr h.uuid)

/-- Modelled from the spec (fuelled; each round strictly shrinks the pool, so
`P.length` rounds suffice): "within one invocation, all candidates tied at
the global minimum are exhausted before moving to the next-higher tier" — the
stable enumeration of the pool tier by tier, in pool order within a tier. -/
def tierSortAux (rr : RRMap) : Nat → List HostInfo → List HostInfo
  | 0, _ => []
  | _, [] => []
  | fuel + 1, h :: t =>
    let mn := minCounter rr h t
    (h :: t).filter (fun x => rr x.uuid = mn) ++
      tierSortAux rr fuel ((h :: t).filter (fun x => rr x.uuid ≠ mn))

/-- See `tierSortAux`. -/
def tierSort (rr : RRMap) (P : List HostInfo) : List HostInfo :=
  tierSortAux rr P.length P

/-- The all-zero counter table (a fresh process). -/
def rrZero : RRMap := fun _ => 0

/-- The counter table after `k` consecutive `roundRobinCull(pool, 1)` calls
starting from the all-zero table, each call on a fresh copy of the fixed
pool. -/
def cullSeqState (pool : List HostInfo) : Nat → RRMap
  | 0 => rrZero
  | k + 1 => (roundRobinCull (cullSeqState pool k) (pool.map some) 1).2.2

/-- The selection of the `k`-th consecutive `roundRobinCull(pool, 1)` call. -/
def cullSeqPick (pool : List HostInfo) (k : Nat) : List HostInfo :=
  (roundRobinCull (cullSeqState pool k) (pool.map some) 1).1

/-! ### Helper lemmas: running minima -/

theorem nat_min_eq_ite (a b : Nat) : Nat.min a b = if a ≤ b then a else b := rfl

theorem ite_gt_min (a b : Nat) : (if a > b then b else a) = Nat.min a b := by
  rw [nat_min_eq_ite]
  split <;> split <;> omega

theorem min_le_left' (a b : Nat) : Nat.min a b ≤ a := by
  rw [nat_min_eq_ite]; split <;> omega

theorem min_le_right' (a b : Nat) : Nat.min a b ≤ b := by
  rw [nat_min_eq_ite]; split <;> omega

theorem foldl_min_le_init {α : Type} (c : α → Nat) (l : List α) (init : Nat) :
    l.foldl (fun m x => Nat.min m (c x)) init ≤ init := by
  induction l generalizing init with
  | nil => exact Nat.le_refl _
  | cons y t ih =>
    exact Nat.le_trans (ih (Nat.min init (c y))) (min_le_left' _ _)

theorem foldl_min_le_mem {α : Type} (c : α → Nat) {x : α} (l : List α) :
    ∀ init : Nat, x ∈ l → l.foldl (fun m x => Nat.min m (c x)) init ≤ c x := by
  induction l with
  | nil => intro init hx; cases hx
  | cons y t ih =>
    intro init hx
    rcases List.mem_cons.mp hx with rfl | hx
    · exact Nat.le_trans (foldl_min_le_init c t _) (min_le_right' _ _)
    · exact ih _ hx

theorem foldl_min_attained {α : Type} (c : α → Nat) (l : List α) (init : Nat) :
    l.foldl (fun m x => Nat.min m (c x)) init = init ∨
      ∃ x ∈ l, l.foldl (fun m x => Nat.min m (c x)) init = c x := by
  induction l generalizing init with
  | nil => exact Or.inl rfl
  | cons y t ih =>
    rcases ih (Nat.min init (c y)) with h | ⟨x, hx, h⟩
    · simp only [List.foldl_cons]
      rw [h, nat_min_eq_ite]
      split
      · exact Or.inl rfl
      · exact Or.inr ⟨y, List.mem_cons_self y t, rfl⟩
    · exact Or.inr ⟨x, List.mem_cons_of_mem _ hx, h⟩

theorem findCurrentMinimum_eq (rr : RRMap) (l : List (Option HostInfo)) (init : Nat) :
    findCurrentMinimum rr l init
      = (l.filterMap id).foldl (fun m h => Nat.min m (rr h.uuid)) init := by
  induction l generalizing init with
  | nil => rfl
  | cons o rest ih =>
    cases o with
    | none => simpa [findCurrentMinimum] using ih init
    | some hi =>
      show (if (if init > rr hi.uuid then rr hi.uuid else init) = 0 then
              (if init > rr hi.uuid then rr hi.uuid else init)
            else findCurrentMinimum rr rest (if init > rr hi.uuid then rr hi.uuid else init))
          = _
      rw [ite_gt_min]
      have hfm : (some hi :: rest).filterMap (id : Option HostInfo → Option HostInfo)
          = hi :: rest.filterMap id := rfl
      rw [hfm, List.foldl_cons]
      by_cases h0 : Nat.min init (rr hi.uuid) = 0
      · rw [if_pos h0]
        have hle := foldl_min_le_init (fun h => rr h.uuid) (rest.filterMap id)
          (Nat.min init (rr hi.uuid))
        omega
      · rw [if_neg h0]
        exact ih (Nat.min init (rr hi.uuid))

/-! ### Helper lemmas: the `addMinimums` scan -/

theorem take_length_of_le {α : Type} :
    ∀ (l : List α) (n : Nat), n ≤ l.length → (l.take n).length = n := by
  intro l
  induction l with
  | nil => intro n hn; simp at hn; simp [hn]
  | cons a t ih =>
    intro n hn
    cases n with
    | zero => simp
    | succ m =>
      rw [List.take_succ_cons, List.length_cons, ih m (by simpa using hn)]

theorem take_of_le_length {α : Type} :
    ∀ (l : List α) (n : Nat), l.length ≤ n → l.take n = l := by
  intro l
  induction l with
  | nil => intro n _; simp
  | cons a t ih =>
    intro n hn
    cases n with
    | zero => simp at hn
    | succ m =>
      rw [List.take_succ_cons, ih m (by simpa using hn)]

theorem addMinimums_out (rr : RRMap) (mn cnt : Nat) :
    ∀ (l : List (Option HostInfo)) (out : List HostInfo),
      (addMinimums rr mn cnt l out).1
        = out ++ ((l.filterMap id).filter (fun h => rr h.uuid = mn)).take
            (if out.length < cnt then cnt - out.length
             else ((l.filterMap id).filter (fun h => rr h.uuid = mn)).length) := by
  intro l
  induction l with
  | nil => intro out; simp [addMinimums]
  | cons o rest ih =>
    intro out
    cases o with
    | none =>
      rw [addMinimums.eq_2]
      simpa using ih out
    | some hi =>
      have hfm : ((some hi :: rest).filterMap (id : Option HostInfo → Option HostInfo))
          = hi :: rest.filterMap id := rfl
      rw [hfm, addMinimums.eq_3]
      by_cases hmn : rr hi.uuid = mn
      · rw [List.filter_cons_of_pos (by simpa using hmn), if_pos hmn]
        by_cases hstop : (out ++ [hi]).length = cnt
        · rw [if_pos hstop]
          simp only [List.length_append, List.length_cons, List.length_nil] at hstop
          have h1 : out.length < cnt := by omega
          have h2 : cnt - out.length = 1 := by omega
          rw [if_pos h1, h2, List.take_succ_cons, List.take_zero]
        · rw [if_neg hstop]
          show (addMinimums rr mn cnt rest (out ++ [hi])).1 = _
          have hrec := ih (out ++ [hi])
          simp only [List.length_append, List.length_cons, List.length_nil] at hstop hrec ⊢
          by_cases h1 : out.length < cnt
          · have h2 : out.length + 1 < cnt := by omega
            rw [if_pos h2] at hrec
            rw [hrec, if_pos h1]
            have h3 : cnt - out.length = (cnt - (out.length + 1)) + 1 := by omega
            rw [h3, List.take_succ_cons, List.append_assoc]
            rfl
          · have h2 : ¬ out.length + 1 < cnt := by omega
            rw [if_neg h2] at hrec
            rw [hrec, if_neg h1]
            generalize (rest.filterMap id).filter (fun h => rr h.uuid = mn) = T
            rw [take_of_le_length T _ (Nat.le_refl _),
              take_of_le_length (hi :: T) _ (by simp), List.append_assoc]
            rfl
      · rw [List.filter_cons_of_neg (by simpa using hmn), if_neg hmn]
        exact ih out

theorem addMinimums_rest (rr : RRMap) (mn cnt : Nat) :
    ∀ (l : List (Option HostInfo)) (out : List HostInfo),
      (cnt ≤ out.length ∨
        ((l.filterMap id).filter (fun h => rr h.uuid = mn)).length ≤ cnt - out.length) →
      (addMinimums rr mn cnt l out).2.filterMap id
        = (l.filterMap id).filter (fun h => rr h.uuid ≠ mn) := by
  intro l
  induction l with
  | nil => intro out _; simp [addMinimums]
  | cons o rest ih =>
    intro out H
    cases o with
    | none =>
      have hfm : ((none :: rest).filterMap (id : Option HostInfo → Option HostInfo))
          = rest.filterMap id := rfl
      rw [hfm] at H ⊢
      rw [addMinimums.eq_2]
      exact ih out H
    | some hi =>
      have hfm : ((some hi :: rest).filterMap (id : Option HostInfo → Option HostInfo))
          = hi :: rest.filterMap id := rfl
      rw [hfm] at H ⊢
      rw [addMinimums.eq_3]
      by_cases hmn : rr hi.uuid = mn
      · rw [List.filter_cons_of_pos (by simpa using hmn)] at H
        rw [List.filter_cons_of_neg (by simpa using hmn), if_pos hmn]
        by_cases hstop : (out ++ [hi]).length = cnt
        · rw [if_pos hstop]
          simp only [List.length_append, List.length_cons, List.length_nil] at hstop H
          have htier : ((rest.filterMap id).filter (fun h => rr h.uuid = mn)).length = 0 := by
            omega
          have htier' : (rest.filterMap id).filter (fun h => rr h.uuid = mn) = [] :=
            List.length_eq_zero.mp htier
          have hall : ∀ x ∈ rest.filterMap id, ¬ (rr x.uuid = mn) := by
            intro x hx hcontra
            have hmem : x ∈ (rest.filterMap id).filter (fun h => rr h.uuid = mn) :=
              List.mem_filter.mpr ⟨hx, by simpa using hcontra⟩
            rw [htier'] at hmem
            cases hmem
          have hself : (rest.filterMap id).filter (fun h => rr h.uuid ≠ mn)
              = rest.filterMap id :=
            List.filter_eq_self.mpr (fun x hx => by simpa using hall x hx)
          rw [hself]
          rfl
        · rw [if_neg hstop]
          have hrec : (addMinimums rr mn cnt rest (out ++ [hi])).2.filterMap id
              = (rest.filterMap id).filter (fun h => rr h.uuid ≠ mn) := by
            apply ih
            simp only [List.length_append, List.length_cons, List.length_nil] at hstop H ⊢
            rcases H with H | H
            · left; omega
            · by_cases hc : cnt ≤ out.length + 1
              · left; omega
              · right; omega
          rw [← hrec]
          rfl
      · rw [List.filter_cons_of_neg (by simpa using hmn)] at H
        rw [List.filter_cons_of_pos (by simpa using hmn), if_neg hmn]
        have hrec := ih out H
        show hi :: (addMinimums rr mn cnt rest out).2.filterMap id = _
        rw [hrec]

theorem addMinimums_frame (rr : RRMap) (mn cnt : Nat) :
    ∀ (l : List (Option HostInfo)) (out : List HostInfo),
      List.Forall₂ (fun a b => b = a ∨ b = none) l (addMinimums rr mn cnt l out).2 := by
  intro l
  induction l with
  | nil => intro out; exact List.Forall₂.nil
  | cons o rest ih =>
    intro out
    cases o with
    | none =>
      rw [addMinimums.eq_2]
      exact List.Forall₂.cons (Or.inr rfl) (ih out)
    | some hi =>
      rw [addMinimums.eq_3]
      by_cases hmn : rr hi.uuid = mn
      · rw [if_pos hmn]
        by_cases hstop : (out ++ [hi]).length = cnt
        · rw [if_pos hstop]
          refine List.Forall₂.cons (Or.inr rfl) ?_
          exact (List.forall₂_same).mpr (fun x _ => Or.inl rfl)
        · rw [if_neg hstop]
          exact List.Forall₂.cons (Or.inr rfl) (ih (out ++ [hi]))
      · rw [if_neg hmn]
        exact List.Forall₂.cons (Or.inl rfl) (ih out)

theorem addMinimums_perm (rr : RRMap) (mn cnt : Nat) :
    ∀ (l : List (Option HostInfo)) (out : List HostInfo),
      ∃ add, (addMinimums rr mn cnt l out).1 = out ++ add ∧
        (l.filterMap id).Perm (add ++ (addMinimums rr mn cnt l out).2.filterMap id) := by
  intro l
  induction l with
  | nil => intro out; exact ⟨[], by simp [addMinimums], by simp [addMinimums]⟩
  | cons o rest ih =>
    intro out
    cases o with
    | none =>
      rw [addMinimums.eq_2]
      obtain ⟨add, h1, h2⟩ := ih out
      exact ⟨add, h1, h2⟩
    | some hi =>
      rw [addMinimums.eq_3]
      by_cases hmn : rr hi.uuid = mn
      · rw [if_pos hmn]
        by_cases hstop : (out ++ [hi]).length = cnt
        · rw [if_pos hstop]
          refine ⟨[hi], rfl, ?_⟩
          exact List.Perm.refl _
        · rw [if_neg hstop]
          obtain ⟨add, h1, h2⟩ := ih (out ++ [hi])
          refine ⟨hi :: add, ?_, ?_⟩
          · show (addMinimums rr mn cnt rest (out ++ [hi])).1 = _
            rw [h1, List.append_assoc]
            rfl
          · show (hi :: rest.filterMap id).Perm ((hi :: add) ++
              (none :: (addMinimums rr mn cnt rest (out ++ [hi])).2).filterMap id)
            exact List.Perm.cons hi h2
      · rw [if_neg hmn]
        obtain ⟨add, h1, h2⟩ := ih out
        refine ⟨add, h1, ?_⟩
        show (hi :: rest.filterMap id).Perm (add ++
          (some hi :: (addMinimums rr mn cnt rest out).2).filterMap id)
        show (hi :: rest.filterMap id).Perm (add ++
          hi :: (addMinimums rr mn cnt rest out).2.filterMap id)
        exact List.Perm.trans (List.Perm.cons hi h2) (List.perm_middle.symm)

/-! ### Helper lemmas: the tier enumeration and the cull loop -/

theorem minCounter_le (rr : RRMap) (h : HostInfo) (t : List HostInfo) :
    ∀ x ∈ h :: t, minCounter rr h t ≤ rr x.uuid := by
  intro x hx
  rcases List.mem_cons.mp hx with rfl | hx
  · exact foldl_min_le_init (fun y => rr y.uuid) t _
  · exact foldl_min_le_mem (fun y => rr y.uuid) t _ hx

theorem minCounter_attained (rr : RRMap) (h : HostInfo) (t : List HostInfo) :
    ∃ x ∈ h :: t, rr x.uuid = minCounter rr h t := by
  rcases foldl_min_attained (fun y => rr y.uuid) t (rr h.uuid) with hh | ⟨x, hx, hh⟩
  · exact ⟨h, List.mem_cons_self h t, hh.symm⟩
  · exact ⟨x, List.mem_cons_of_mem _ hx, hh.symm⟩

theorem filter_ne_length_lt (rr : RRMap) (mn : Nat) (P : List HostInfo)
    (hx : ∃ x ∈ P, rr x.uuid = mn) :
    (P.filter (fun x => rr x.uuid ≠ mn)).length < P.length := by
  induction P with
  | nil => obtain ⟨x, hx, _⟩ := hx; cases hx
  | cons y t ih =>
    by_cases hy : rr y.uuid = mn
    · rw [List.filter_cons_of_neg (by simpa using hy)]
      exact Nat.lt_succ_of_le (List.length_filter_le _ t)
    · rw [List.filter_cons_of_pos (by simpa using hy)]
      obtain ⟨x, hmem, hxeq⟩ := hx
      rcases List.mem_cons.mp hmem with rfl | hmem
      · exact absurd hxeq hy
      · simpa using ih ⟨x, hmem, hxeq⟩

theorem tierSortAux_nil (rr : RRMap) (fuel : Nat) : tierSortAux rr fuel [] = [] := by
  cases fuel <;> simp [tierSortAux]

theorem tierSortAux_congr (rr : RRMap) :
    ∀ (f1 : Nat) (P : List HostInfo) (f2 : Nat), P.length ≤ f1 → P.length ≤ f2 →
      tierSortAux rr f1 P = tierSortAux rr f2 P := by
  intro f1
  induction f1 with
  | zero =>
    intro P f2 h1 _
    have : P = [] := List.length_eq_zero.mp (Nat.le_zero.mp h1)
    subst this
    rw [tierSortAux.eq_1, tierSortAux_nil]
  | succ g1 ih =>
    intro P f2 h1 h2
    cases P with
    | nil => rw [tierSortAux_nil, tierSortAux_nil]
    | cons h t =>
      cases f2 with
      | zero => simp at h2
      | succ g2 =>
        rw [tierSortAux.eq_3, tierSortAux.eq_3]
        have hlt : ((h :: t).filter (fun x => rr x.uuid ≠ minCounter rr h t)).length
            < (h :: t).length :=
          filter_ne_length_lt rr _ _ (minCounter_attained rr h t)
        simp only [List.length_cons] at h1 h2 hlt
        rw [ih _ g2 (by omega) (by omega)]

theorem tierSort_cons (rr : RRMap) (h : HostInfo) (t : List HostInfo) :
    tierSort rr (h :: t)
      = (h :: t).filter (fun x => rr x.uuid = minCounter rr h t) ++
        tierSort rr ((h :: t).filter (fun x => rr x.uuid ≠ minCounter rr h t)) := by
  show tierSortAux rr (h :: t).length (h :: t) = _
  rw [List.length_cons, tierSortAux.eq_3]
  have hlt : ((h :: t).filter (fun x => rr x.uuid ≠ minCounter rr h t)).length
      < (h :: t).length :=
    filter_ne_length_lt rr _ _ (minCounter_attained rr h t)
  simp only [List.length_cons] at hlt
  rw [tierSortAux_congr rr t.length _ _ (by omega) (Nat.le_refl _)]
  rfl

theorem tierSort_perm (rr : RRMap) :
    ∀ (n : Nat) (P : List HostInfo), P.length ≤ n → (tierSort rr P).Perm P := by
  intro n
  induction n with
  | zero =>
    intro P h1
    have : P = [] := List.length_eq_zero.mp (Nat.le_zero.mp h1)
    subst this
    exact List.Perm.refl _
  | succ m ih =>
    intro P h1
    cases P with
    | nil => exact List.Perm.refl _
    | cons h t =>
      rw [tierSort_cons]
      have hlt : ((h :: t).filter (fun x => rr x.uuid ≠ minCounter rr h t)).length
          < (h :: t).length :=
        filter_ne_length_lt rr _ _ (minCounter_attained rr h t)
      have hrec := ih ((h :: t).filter (fun x => rr x.uuid ≠ minCounter rr h t))
        (by simp only [List.length_cons] at h1 hlt ⊢; omega)
      refine List.Perm.trans (List.Perm.append_left _ hrec) ?_
      have hne : ((h :: t).filter (fun x => rr x.uuid ≠ minCounter rr h t))
          = ((h :: t).filter (fun x => !(decide (rr x.uuid = minCounter rr h t)))) := by
        simp
      rw [hne]
      exact List.filter_append_perm _ _

theorem cullLoopAux_main (rr : RRMap) (cnt : Nat) :
    ∀ (fuel : Nat) (l : List (Option HostInfo)) (out : List HostInfo),
      countSome l < fuel →
      (∀ h ∈ l.filterMap id, rr h.uuid < maxInt32) →
      out.length < cnt →
      (cullLoopAux rr cnt fuel l out).1
        = out ++ (tierSort rr (l.filterMap id)).take (cnt - out.length) := by
  intro fuel
  induction fuel with
  | zero => intro l out hfuel _ _; exact absurd hfuel (Nat.not_lt_zero _)
  | succ fuel ih =>
    intro l out hfuel hbound hlen
    rw [cullLoopAux.eq_2]
    rcases hP : l.filterMap id with _ | ⟨h, t⟩
    · -- empty pool: the minimum scan returns the sentinel, nothing is added
      have hmn : findCurrentMinimum rr l maxInt32 = maxInt32 := by
        rw [findCurrentMinimum_eq, hP]
        rfl
      rw [hmn, if_pos (Or.inr rfl)]
      rw [addMinimums_out, hP]
      simp [tierSort, tierSortAux_nil]
    · -- nonempty pool
      have hmn : findCurrentMinimum rr l maxInt32 = minCounter rr h t := by
        rw [findCurrentMinimum_eq, hP]
        show List.foldl _ _ (h :: t) = _
        rw [List.foldl_cons]
        have : Nat.min maxInt32 (rr h.uuid) = rr h.uuid := by
          have hb := hbound h (by rw [hP]; exact List.mem_cons_self h t)
          rw [nat_min_eq_ite, if_neg (by omega)]
        rw [this]
        rfl
      have hmnlt : minCounter rr h t < maxInt32 := by
        have hb := hbound h (by rw [hP]; exact List.mem_cons_self h t)
        exact Nat.lt_of_le_of_lt (minCounter_le rr h t h (List.mem_cons_self h t)) hb
      rw [hmn]
      have hout := addMinimums_out rr (minCounter rr h t) cnt l out
      rw [hP, if_pos hlen] at hout
      have htier_ne : (h :: t).filter (fun x => rr x.uuid = minCounter rr h t) ≠ [] := by
        obtain ⟨x, hxm, hxe⟩ := minCounter_attained rr h t
        exact List.ne_nil_of_mem (List.mem_filter.mpr ⟨hxm, by simpa using hxe⟩)
      by_cases hstop :
          cnt - out.length ≤ ((h :: t).filter (fun x => rr x.uuid = minCounter rr h t)).length
      · -- the team fills up inside this tier
        have hlen1 : (addMinimums rr (minCounter rr h t) cnt l out).1.length = cnt := by
          rw [hout]
          rw [List.length_append, take_length_of_le _ _ hstop]
          omega
        rw [if_pos (Or.inl hlen1), hout, tierSort_cons]
        rw [List.take_append_of_le_length hstop]
      · -- the whole tier is consumed and the loop continues
        push_neg at hstop
        have htk :
            ((h :: t).filter (fun x => rr x.uuid = minCounter rr h t)).take (cnt - out.length)
              = (h :: t).filter (fun x => rr x.uuid = minCounter rr h t) :=
          take_of_le_length _ _ (Nat.le_of_lt hstop)
        rw [htk] at hout
        have hlen1 : (addMinimums rr (minCounter rr h t) cnt l out).1.length
            = out.length
              + ((h :: t).filter (fun x => rr x.uuid = minCounter rr h t)).length := by
          rw [hout, List.length_append]
        have hne_cnt : ¬ ((addMinimums rr (minCounter rr h t) cnt l out).1.length = cnt) := by
          rw [hlen1]; omega
        rw [if_neg (by push_neg; exact ⟨hne_cnt, by omega⟩)]
        have H' : cnt ≤ out.length ∨
            ((l.filterMap id).filter
              (fun x => rr x.uuid = minCounter rr h t)).length ≤ cnt - out.length := by
          rw [hP]; right; omega
        have hrest := addMinimums_rest rr (minCounter rr h t) cnt l out H'
        rw [hP] at hrest
        have hdec : countSome (addMinimums rr (minCounter rr h t) cnt l out).2
            < countSome l := by
          show ((addMinimums rr (minCounter rr h t) cnt l out).2.filterMap id).length
            < (l.filterMap id).length
          rw [hrest, hP]
          exact filter_ne_length_lt rr _ _ (minCounter_attained rr h t)
        have hboundrec : ∀ x ∈ (addMinimums rr (minCounter rr h t) cnt l out).2.filterMap id,
            rr x.uuid < maxInt32 := by
          intro x hx
          rw [hrest] at hx
          exact hbound x (by rw [hP]; exact (List.mem_filter.mp hx).1)
        have hlenrec : (addMinimums rr (minCounter rr h t) cnt l out).1.length < cnt := by
          rw [hlen1]; omega
        have := ih (addMinimums rr (minCounter rr h t) cnt l out).2
          (addMinimums rr (minCounter rr h t) cnt l out).1
          (by omega) hboundrec hlenrec
        rw [this, hrest, hout, tierSort_cons]
        rw [List.take_append_eq_append_take]
        rw [take_of_le_length _ (cnt - out.length) (Nat.le_of_lt hstop)]
        rw [List.append_assoc]
        have harith : cnt - (out.length
              + ((h :: t).filter (fun x => rr x.uuid = minCounter rr h t)).length)
            = cnt - out.length
              - ((h :: t).filter (fun x => rr x.uuid = minCounter rr h t)).length := by
          omega
        rw [List.length_append, harith]

theorem frame_trans {l1 l2 l3 : List (Option HostInfo)}
    (h12 : List.Forall₂ (fun a b => b = a ∨ b = none) l1 l2)
    (h23 : List.Forall₂ (fun a b => b = a ∨ b = none) l2 l3) :
    List.Forall₂ (fun a b => b = a ∨ b = none) l1 l3 := by
  induction h12 generalizing l3 with
  | nil => cases h23; exact List.Forall₂.nil
  | @cons a b t1 t2 hab _ ih =>
    cases h23 with
    | cons hbc hrest2 =>
      refine List.Forall₂.cons ?_ (ih hrest2)
      rcases hbc with rfl | rfl
      · exact hab
      · exact Or.inr rfl

theorem cullLoopAux_frame (rr : RRMap) (cnt : Nat) :
    ∀ (fuel : Nat) (l : List (Option HostInfo)) (out : List HostInfo),
      List.Forall₂ (fun a b => b = a ∨ b = none) l (cullLoopAux rr cnt fuel l out).2 := by
  intro fuel
  induction fuel with
  | zero =>
    intro l out
    exact (List.forall₂_same).mpr (fun x _ => Or.inl rfl)
  | succ fuel ih =>
    intro l out
    rw [cullLoopAux.eq_2]
    by_cases hc : (addMinimums rr (findCurrentMinimum rr l maxInt32) cnt l out).1.length = cnt ∨
        findCurrentMinimum rr l maxInt32 = maxInt32
    · rw [if_pos hc]
      exact addMinimums_frame rr _ cnt l out
    · rw [if_neg hc]
      exact frame_trans (addMinimums_frame rr _ cnt l out) (ih _ _)

theorem cullLoopAux_perm (rr : RRMap) (cnt : Nat) :
    ∀ (fuel : Nat) (l : List (Option HostInfo)) (out : List HostInfo),
      ∃ add, (cullLoopAux rr cnt fuel l out).1 = out ++ add ∧
        (l.filterMap id).Perm (add ++ (cullLoopAux rr cnt fuel l out).2.filterMap id) := by
  intro fuel
  induction fuel with
  | zero =>
    intro l out
    exact ⟨[], by simp [cullLoopAux], by simp [cullLoopAux]⟩
  | succ fuel ih =>
    intro l out
    rw [cullLoopAux.eq_2]
    by_cases hc : (addMinimums rr (findCurrentMinimum rr l maxInt32) cnt l out).1.length = cnt ∨
        findCurrentMinimum rr l maxInt32 = maxInt32
    · rw [if_pos hc]
      exact addMinimums_perm rr _ cnt l out
    · rw [if_neg hc]
      obtain ⟨add1, h1, h2⟩ := addMinimums_perm rr (findCurrentMinimum rr l maxInt32) cnt l out
      obtain ⟨add2, h3, h4⟩ := ih (addMinimums rr (findCurrentMinimum rr l maxInt32) cnt l out).2
        (addMinimums rr (findCurrentMinimum rr l maxInt32) cnt l out).1
      refine ⟨add1 ++ add2, ?_, ?_⟩
      · rw [h3, h1, List.append_assoc]
      · refine List.Perm.trans h2 ?_
        rw [List.append_assoc]
        exact List.Perm.append_left add1 h4

theorem foldl_bump (out : List HostInfo) :
    ∀ (rr : RRMap) (u : String),
      (out.foldl (fun m hi => fun v => if v = hi.uuid then m v + 1 else m v) rr) u
        = rr u + out.countP (fun hi => u = hi.uuid) := by
  induction out with
  | nil => intro rr u; simp
  | cons hi t ih =>
    intro rr u
    rw [List.foldl_cons, ih, List.countP_cons]
    by_cases hu : u = hi.uuid <;> simp [hu] <;> omega

theorem roundRobinCull_cases (rr : RRMap) (l : List (Option HostInfo)) (cnt : Nat) :
    ((roundRobinCull rr l cnt).1 = [] ∧ (roundRobinCull rr l cnt).2.2 = rr) ∨
      ((roundRobinCull rr l cnt).1.length = cnt ∧
        ∀ u, (roundRobinCull rr l cnt).2.2 u
          = rr u + (roundRobinCull rr l cnt).1.countP (fun hi => u = hi.uuid)) := by
  show _ ∨ ((roundRobinCull rr l cnt).1.length = cnt ∧ _)
  unfold roundRobinCull
  by_cases h : (cullLoopAux rr cnt (countSome l + 1) l []).1.length ≠ cnt
  · rw [if_pos h]
    exact Or.inl ⟨rfl, rfl⟩
  · rw [if_neg h]
    push_neg at h
    exact Or.inr ⟨h, fun u => foldl_bump _ rr u⟩

theorem filterMap_map_some (P : List HostInfo) : (P.map some).filterMap id = P := by
  induction P with
  | nil => rfl
  | cons h t ih =>
    show h :: (t.map some).filterMap id = h :: t
    rw [ih]

theorem countSome_map_some (P : List HostInfo) : countSome (P.map some) = P.length := by
  show ((P.map some).filterMap id).length = P.length
  rw [filterMap_map_some]

theorem roundRobinCull_success (rr : RRMap) (P : List HostInfo) (cnt : Nat)
    (hbound : ∀ h ∈ P, rr h.uuid < maxInt32) (hcnt : cnt ≤ P.length) :
    (roundRobinCull rr (P.map some) cnt).1 = (tierSort rr P).take cnt ∧
    (roundRobinCull rr (P.map some) cnt).1.length = cnt ∧
    ∀ u, (roundRobinCull rr (P.map some) cnt).2.2 u
        = rr u + ((tierSort rr P).take cnt).countP (fun hi => u = hi.uuid) := by
  cases cnt with
  | zero =>
    rcases roundRobinCull_cases rr (P.map some) 0 with ⟨h1, h2⟩ | ⟨h1, h2⟩
    · refine ⟨by rw [h1, List.take_zero], by rw [h1]; rfl, ?_⟩
      intro u
      rw [h2]
      simp
    · have hnil : (roundRobinCull rr (P.map some) 0).1 = [] :=
        List.length_eq_zero.mp h1
      refine ⟨by rw [hnil, List.take_zero], h1, ?_⟩
      intro u
      rw [h2 u, hnil]
      simp
  | succ m =>
    have hmain := cullLoopAux_main rr (m + 1) (countSome (P.map some) + 1) (P.map some) []
      (Nat.lt_succ_self _) (by rw [filterMap_map_some]; exact hbound) (Nat.succ_pos m)
    rw [filterMap_map_some] at hmain
    simp only [List.nil_append, Nat.sub_zero, List.length_nil] at hmain
    have hlen : (cullLoopAux rr (m + 1) (countSome (P.map some) + 1) (P.map some) []).1.length
        = m + 1 := by
      rw [hmain]
      refine take_length_of_le _ _ ?_
      rw [(tierSort_perm rr P.length P (Nat.le_refl _)).length_eq]
      exact hcnt
    have hres : roundRobinCull rr (P.map some) (m + 1)
        = ((cullLoopAux rr (m + 1) (countSome (P.map some) + 1) (P.map some) []).1,
           (cullLoopAux rr (m + 1) (countSome (P.map some) + 1) (P.map some) []).2,
           (cullLoopAux rr (m + 1) (countSome (P.map some) + 1) (P.map some) []).1.foldl
             (fun m hi => fun u => if u = hi.uuid then m u + 1 else m u) rr) := by
      unfold roundRobinCull
      rw [if_neg (by rw [hlen]; exact fun hcon => hcon rfl)]
    rw [hres]
    refine ⟨hmain, hlen, ?_⟩
    intro u
    show ((cullLoopAux rr (m + 1) (countSome (P.map some) + 1) (P.map some) []).1.foldl
      (fun m hi => fun u => if u = hi.uuid then m u + 1 else m u) rr) u = _
    rw [foldl_bump, hmain]

theorem roundRobinCull_frame (rr : RRMap) (l : List (Option HostInfo)) (cnt : Nat) :
    List.Forall₂ (fun a b => b = a ∨ b = none) l (roundRobinCull rr l cnt).2.1 := by
  unfold roundRobinCull
  by_cases h : (cullLoopAux rr cnt (countSome l + 1) l []).1.length ≠ cnt
  · rw [if_pos h]
    exact cullLoopAux_frame rr cnt _ l []
  · rw [if_neg h]
    exact cullLoopAux_frame rr cnt _ l []

theorem roundRobinCull_perm_success (rr : RRMap) (l : List (Option HostInfo)) (cnt : Nat)
    (h0 : 0 < cnt) (hsucc : (roundRobinCull rr l cnt).1.length = cnt) :
    (l.filterMap id).Perm
      ((roundRobinCull rr l cnt).1 ++ (roundRobinCull rr l cnt).2.1.filterMap id) := by
  obtain ⟨add, h1, h2⟩ := cullLoopAux_perm rr cnt (countSome l + 1) l []
  rw [List.nil_append] at h1
  by_cases h : (cullLoopAux rr cnt (countSome l + 1) l []).1.length ≠ cnt
  · exfalso
    have : (roundRobinCull rr l cnt).1 = [] := by
      unfold roundRobinCull
      rw [if_pos h]
    rw [this] at hsucc
    simp at hsucc
    omega
  · have hres : (roundRobinCull rr l cnt).1 = (cullLoopAux rr cnt (countSome l + 1) l []).1
        ∧ (roundRobinCull rr l cnt).2.1 = (cullLoopAux rr cnt (countSome l + 1) l []).2 := by
      unfold roundRobinCull
      rw [if_neg h]
      exact ⟨rfl, rfl⟩
    rw [hres.1, hres.2, h1]
    exact h2

/-! ### Helper lemmas: the round-robin call sequence -/

theorem tierSort_take_one_at (s : RRMap) (pool : List HostInfo) (k : Nat)
    (hk : k < pool.length) (hzero : s (pool[k].uuid) = 0)
    (hpre : ∀ x ∈ pool.take k, s x.uuid ≠ 0) :
    (tierSort s pool).take 1 = [pool[k]] := by
  cases pool with
  | nil => cases hk
  | cons h t =>
    rw [tierSort_cons]
    have hmem : (h :: t)[k] ∈ h :: t := List.getElem_mem _
    have hmn0 : minCounter s h t = 0 := by
      have hle := minCounter_le s h t _ hmem
      omega
    rw [hmn0]
    have hsplit : (h :: t).filter (fun x => s x.uuid = 0)
        = ((h :: t).take k).filter (fun x => s x.uuid = 0)
          ++ ((h :: t).drop k).filter (fun x => s x.uuid = 0) := by
      rw [← List.filter_append, List.take_append_drop]
    have h1 : ((h :: t).take k).filter (fun x => s x.uuid = 0) = [] :=
      List.filter_eq_nil_iff.mpr (fun x hx => by simpa using hpre x hx)
    have h2 : (h :: t).drop k = (h :: t)[k] :: (h :: t).drop (k + 1) :=
      List.drop_eq_getElem_cons hk
    rw [hsplit, h1, h2, List.filter_cons_of_pos (by simpa using hzero)]
    rw [List.nil_append, List.cons_append, List.take_succ_cons, List.take_zero]

theorem cullSeq_step (pool : List HostInfo) (hnd : (pool.map HostInfo.uuid).Nodup)
    (k : Nat) (hk : k < pool.length)
    (hstate : ∀ u, cullSeqState pool k u
      = if u ∈ (pool.take k).map HostInfo.uuid then 1 else 0) :
    cullSeqPick pool k = [pool[k]] ∧
    ∀ u, cullSeqState pool (k + 1) u
        = if u ∈ (pool.take (k + 1)).map HostInfo.uuid then 1 else 0 := by
  have hbound : ∀ h ∈ pool, cullSeqState pool k h.uuid < maxInt32 := by
    intro h hmem
    rw [hstate]
    have : (1 : Nat) < maxInt32 := by decide
    split <;> omega
  have hsplitmap : pool.map HostInfo.uuid
      = (pool.take k).map HostInfo.uuid ++ (pool.drop k).map HostInfo.uuid := by
    rw [← List.map_append, List.take_append_drop]
  have hnd' := hnd
  rw [hsplitmap, List.nodup_append] at hnd'
  have hdropmem : pool[k].uuid ∈ (pool.drop k).map HostInfo.uuid := by
    rw [List.drop_eq_getElem_cons hk, List.map_cons]
    exact List.mem_cons_self _ _
  have hnotin : pool[k].uuid ∉ (pool.take k).map HostInfo.uuid := by
    intro hmem
    exact hnd'.2.2 hmem hdropmem
  have hpre : ∀ x ∈ pool.take k, cullSeqState pool k x.uuid ≠ 0 := by
    intro x hx
    rw [hstate, if_pos (List.mem_map_of_mem _ hx)]
    exact Nat.one_ne_zero
  have hzero : cullSeqState pool k (pool[k].uuid) = 0 := by
    rw [hstate, if_neg hnotin]
  have hsucc := roundRobinCull_success (cullSeqState pool k) pool 1 hbound (by omega)
  have hpick1 : (tierSort (cullSeqState pool k) pool).take 1 = [pool[k]] :=
    tierSort_take_one_at _ pool k hk hzero hpre
  constructor
  · show (roundRobinCull (cullSeqState pool k) (pool.map some) 1).1 = _
    rw [hsucc.1, hpick1]
  · intro u
    show (roundRobinCull (cullSeqState pool k) (pool.map some) 1).2.2 u = _
    rw [hsucc.2.2 u, hpick1, hstate u]
    have hcp : ([pool[k]] : List HostInfo).countP (fun hi => u = hi.uuid)
        = if u = pool[k].uuid then 1 else 0 := by
      simp [List.countP_cons]
    rw [hcp]
    have htake : pool.take (k + 1) = pool.take k ++ [pool[k]] :=
      (List.take_concat_get' pool k hk).symm
    rw [htake, List.map_append]
    by_cases h1 : u ∈ (pool.take k).map HostInfo.uuid
    · have h2 : u ≠ pool[k].uuid := fun he => hnotin (he ▸ h1)
      rw [if_pos h1, if_neg h2, if_pos (List.mem_append.mpr (Or.inl h1))]
    · by_cases h2 : u = pool[k].uuid
      · rw [if_neg h1, if_pos h2, if_pos (List.mem_append.mpr (Or.inr (by simp [h2])))]
      · rw [if_neg h1, if_neg h2, if_neg ?_]
        intro hmem
        rcases List.mem_append.mp hmem with hm | hm
        · exact h1 hm
        · simp at hm
          exact h2 hm

theorem cullSeqState_inv (pool : List HostInfo) (hnd : (pool.map HostInfo.uuid).Nodup) :
    ∀ k, k ≤ pool.length →
      ∀ u, cullSeqState pool k u = if u ∈ (pool.take k).map HostInfo.uuid then 1 else 0 := by
  intro k
  induction k with
  | zero => intro _ u; simp [cullSeqState, rrZero]
  | succ k ih =>
    intro hk1
    have hk : k < pool.length := Nat.lt_of_succ_le hk1
    exact (cullSeq_step pool hnd k hk (ih (Nat.le_of_lt hk))).2

theorem cullSeqPick_eq (pool : List HostInfo) (hnd : (pool.map HostInfo.uuid).Nodup)
    (k : Nat) (hk : k < pool.length) : cullSeqPick pool k = [pool[k]] :=
  (cullSeq_step pool hnd k hk (cullSeqState_inv pool hnd k (Nat.le_of_lt hk))).1

/-! ### Concrete data for witnesses and counterexamples -/

/-- A concrete host record. -/
def hA : HostInfo := ⟨"ua", "na", "10.0.0.1:4240", "sku1"⟩

/-- A concrete host record. -/
def hB : HostInfo := ⟨"ub", "nb", "10.0.0.2:4240", "sku1"⟩

/-- A concrete host record with a malformed (colon-free) address. -/
def hBad : HostInfo := ⟨"ux", "nx", "bad-address", "sku1"⟩

/-- An all-zero controller configuration. -/
def cfg0 : ControllerConfig := ⟨0, 0, 0, 0, 0, 0, 0, 0, 0, 0, 0, 0⟩

/-- A base environment: no topology map and failing collaborators. -/
def envBase : Env where
  distMap := none
  rpmGetHosts := fun _ => .error "no registry"
  rpmFindHostForAddr := fun _ _ => .error "no registry"
  cfgGet := fun _ _ _ _ => .error "no config"
  loadGet := fun _ _ _ _ => .error "no metrics"
  cfg := cfg0

/-! ### Claim theorems -/

/-- C5: every `roundRobinCull` call is atomic with respect to the counter
table: counters never decrease; on success (output size = count) each
returned host's counter grows by exactly its multiplicity in the output —
by exactly 1 per returned host — and no other counter changes; on failure
the output is empty and every counter is unchanged. -/
theorem c5_cull_atomic (rr : RRMap) (l : List (Option HostInfo)) (count : Nat) :
    (∀ u, rr u ≤ (roundRobinCull rr l count).2.2 u) ∧
    ((roundRobinCull rr l count).1.length = count →
      ∀ u, (roundRobinCull rr l count).2.2 u
        = rr u + (roundRobinCull rr l count).1.countP (fun hi => u = hi.uuid)) ∧
    ((roundRobinCull rr l count).1.length ≠ count →
      (roundRobinCull rr l count).1 = [] ∧ (roundRobinCull rr l count).2.2 = rr) := by
  rcases roundRobinCull_cases rr l count with ⟨h1, h2⟩ | ⟨h1, h2⟩
  · refine ⟨fun u => by rw [h2], ?_, fun _ => ⟨h1, h2⟩⟩
    intro _ u
    rw [h2, h1]
    simp
  · refine ⟨fun u => by rw [h2 u]; omega, fun _ => h2, ?_⟩
    intro hne
    exact absurd h1 hne

/-- Witness for C5 at a concrete pool. -/
theorem c5_cull_atomic_witness :
    (roundRobinCull rrZero [some hA, some hB] 1).1.length = 1 ∧
    (roundRobinCull rrZero [some hA, some hB] 1).2.2 "ua"
      = rrZero "ua" + (roundRobinCull rrZero [some hA, some hB] 1).1.countP
          (fun hi => "ua" = hi.uuid) :=
  ⟨by decide, (c5_cull_atomic rrZero [some hA, some hB] 1).2.1 (by decide) "ua"⟩

/-- C6: starting from the all-zero counter table, `P` consecutive
`cull(pool, 1)` calls over a fixed pool of `P` hosts with pairwise-distinct
UUIDs select the hosts in pool order — every host exactly once —, after any
prefix of calls the counters of two pool hosts differ by at most 1 (and all
equal 1 after `P` calls), and, within any single invocation over any pool and
counter table, the output is a prefix of the tier enumeration: all candidates
tied at the minimum counter, in pool order, precede any higher-counter
candidate. -/
theorem c6_round_robin_fairness (pool : List HostInfo)
    (hnd : (pool.map HostInfo.uuid).Nodup) :
    (∀ k (hk : k < pool.length), cullSeqPick pool k = [pool[k]]) ∧
    (∀ k, k ≤ pool.length → ∀ x y, x ∈ pool → y ∈ pool →
      cullSeqState pool k x.uuid ≤ cullSeqState pool k y.uuid + 1) ∧
    (∀ x, x ∈ pool → cullSeqState pool pool.length x.uuid = 1) ∧
    (∀ (rr : RRMap) (P : List HostInfo) (count : Nat),
      (∀ x ∈ P, rr x.uuid < maxInt32) →
      (roundRobinCull rr (P.map some) count).1 = [] ∨
        (roundRobinCull rr (P.map some) count).1 = (tierSort rr P).take count) := by
  refine ⟨fun k hk => cullSeqPick_eq pool hnd k hk, ?_, ?_, ?_⟩
  · intro k hk x y hx hy
    rw [cullSeqState_inv pool hnd k hk, cullSeqState_inv pool hnd k hk]
    split <;> split <;> omega
  · intro x hx
    rw [cullSeqState_inv pool hnd pool.length (Nat.le_refl _), List.take_length,
      if_pos (List.mem_map_of_mem _ hx)]
  · intro rr P count hbound
    by_cases h : (cullLoopAux rr count (countSome (P.map some) + 1) (P.map some) []).1.length
        ≠ count
    · left
      show (roundRobinCull rr (P.map some) count).1 = []
      unfold roundRobinCull
      rw [if_pos h]
    · right
      push_neg at h
      cases count with
      | zero =>
        have hnil : (cullLoopAux rr 0 (countSome (P.map some) + 1) (P.map some) []).1 = [] :=
          List.length_eq_zero.mp h
        show (roundRobinCull rr (P.map some) 0).1 = _
        unfold roundRobinCull
        rw [if_neg (by rw [h]; exact fun hc => hc rfl)]
        rw [List.take_zero]
        exact hnil
      | succ m =>
        have hmain := cullLoopAux_main rr (m + 1) (countSome (P.map some) + 1) (P.map some) []
          (Nat.lt_succ_self _) (by rw [filterMap_map_some]; exact hbound) (Nat.succ_pos m)
        rw [filterMap_map_some] at hmain
        simp only [List.nil_append, Nat.sub_zero, List.length_nil] at hmain
        show (roundRobinCull rr (P.map some) (m + 1)).1 = _
        unfold roundRobinCull
        rw [if_neg (by rw [h]; exact fun hc => hc rfl)]
        exact hmain

/-- Witness for C6 at a concrete two-host pool. -/
theorem c6_round_robin_fairness_witness :
    cullSeqPick [hA, hB] 0 = [hA] ∧ cullSeqPick [hA, hB] 1 = [hB] ∧
    cullSeqState [hA, hB] 2 hA.uuid = 1 ∧ cullSeqState [hA, hB] 2 hB.uuid = 1 := by
  have h := c6_round_robin_fairness [hA, hB] (by decide)
  exact ⟨h.1 0 (by decide), h.1 1 (by decide),
    h.2.2.1 hA (by decide), h.2.2.1 hB (by decide)⟩

/-- C10: `roundRobinCull` mutates the caller's slice: every slot of the
returned slice is either the original entry or has been overwritten with
`nil`, and on success (for a positive count) the surviving non-nil entries
are exactly the original candidates minus the returned hosts, so a caller
reusing the slice sees the selected hosts removed. -/
theorem c10_cull_overwrites_selected (rr : RRMap) (l : List (Option HostInfo)) (count : Nat) :
    List.Forall₂ (fun a b => b = a ∨ b = none) l (roundRobinCull rr l count).2.1 ∧
    (0 < count → (roundRobinCull rr l count).1.length = count →
      (l.filterMap id).Perm
        ((roundRobinCull rr l count).1 ++ (roundRobinCull rr l count).2.1.filterMap id)) :=
  ⟨roundRobinCull_frame rr l count,
   fun h0 hs => roundRobinCull_perm_success rr l count h0 hs⟩

/-- Witness for C10 at a concrete pool. -/
theorem c10_cull_overwrites_selected_witness :
    (([some hA, some hB] : List (Option HostInfo)).filterMap id).Perm
      ((roundRobinCull rrZero [some hA, some hB] 1).1
        ++ (roundRobinCull rrZero [some hA, some hB] 1).2.1.filterMap id) :=
  (c10_cull_overwrites_selected rrZero [some hA, some hB] 1).2 (by decide) (by decide)

theorem pickInput_spec (p : Env) (rr : RRMap) (sh : List HostInfo) :
    PickInputHost p rr sh = specFairnessPickOne p rr InputServiceName .noInputHosts := by
  unfold PickInputHost pickHostsWithFallback specFairnessPickOne
  rcases hg : p.rpmGetHosts InputServiceName with e | hosts
  · simp only [hg]
  · simp only [hg]
    rcases hc : roundRobinCull rr (hosts.map some) 1 with ⟨out, l2, rr1⟩
    rcases out with _ | ⟨c1, t⟩
    · rfl
    · rcases t with _ | ⟨c2, t2⟩ <;> rfl

theorem pickOutput_spec (p : Env) (rr : RRMap) (sh : List HostInfo) :
    PickOutputHost p rr sh = specFairnessPickOne p rr OutputServiceName .noOutputHosts := by
  unfold PickOutputHost pickHostsWithFallback specFairnessPickOne
  rcases hg : p.rpmGetHosts OutputServiceName with e | hosts
  · simp only [hg]
  · simp only [hg]
    rcases hc : roundRobinCull rr (hosts.map some) 1 with ⟨out, l2, rr1⟩
    rcases out with _ | ⟨c1, t⟩
    · rfl
    · rcases t with _ | ⟨c2, t2⟩ <;> rfl

/-- C4: `PickInputHost` / `PickOutputHost` are exactly "fairness-cull one
host from all live hosts of the role": the configured distance bands and the
`storeHosts` argument have no effect, and the call fails with the
role-specific error exactly when the registry lookup fails or the cull does
not produce one host (which is what `specFairnessPickOne` says). -/
theorem c4_input_output_fairness_only (p : Env) (rr : RRMap)
    (storeHosts storeHosts2 : List HostInfo) (c2 : ControllerConfig) :
    PickInputHost p rr storeHosts = specFairnessPickOne p rr InputServiceName .noInputHosts ∧
    PickOutputHost p rr storeHosts = specFairnessPickOne p rr OutputServiceName .noOutputHosts ∧
    PickInputHost { p with cfg := c2 } rr storeHosts2 = PickInputHost p rr storeHosts ∧
    PickOutputHost { p with cfg := c2 } rr storeHosts2 = PickOutputHost p rr storeHosts := by
  refine ⟨pickInput_spec p rr storeHosts, pickOutput_spec p rr storeHosts, ?_, ?_⟩
  · rw [pickInput_spec, pickInput_spec]
    rfl
  · rw [pickOutput_spec, pickOutput_spec]
    rfl

/-- C7: the eligibility filter is fail-open on missing config and missing
metrics, excludes administratively non-enabled hosts, and excludes hosts
whose reported free space is at most the configured minimum. -/
theorem c7_eligibility_fail_open (p : Env) (host : HostInfo) :
    (doesStoreMeetConstraints p host = true ↔
      ((∃ e, p.cfgGet StoreServiceName "*" host.sku host.name = .error e) ∨
       (∃ cfg, p.cfgGet StoreServiceName "*" host.sku host.name = .ok cfg ∧
         cfg.adminStatus = "enabled" ∧
         ((∃ e, p.loadGet host.uuid EmptyTag RemDiskSpaceBytes OneMinAvg = .error e) ∨
          (∃ v, p.loadGet host.uuid EmptyTag RemDiskSpaceBytes OneMinAvg = .ok v ∧
            cfg.minFreeDiskSpaceBytes < v))))) ∧
    (∀ cfg v, p.cfgGet StoreServiceName "*" host.sku host.name = .ok cfg →
      p.loadGet host.uuid EmptyTag RemDiskSpaceBytes OneMinAvg = .ok v →
      v ≤ cfg.minFreeDiskSpaceBytes →
      doesStoreMeetConstraints p host = false) := by
  constructor
  · rcases hc : p.cfgGet StoreServiceName "*" host.sku host.name with e | cfg
    · simp only [doesStoreMeetConstraints, hc]
      exact iff_of_true (by trivial) (Or.inl ⟨e, rfl⟩)
    · simp only [doesStoreMeetConstraints, hc]
      by_cases ha : cfg.adminStatus = "enabled"
      · rw [if_neg (fun hne => hne ha)]
        rcases hl : p.loadGet host.uuid EmptyTag RemDiskSpaceBytes OneMinAvg with e2 | v
        · simp only [hl]
          exact iff_of_true (by trivial) (Or.inr ⟨cfg, rfl, ha, Or.inl ⟨e2, rfl⟩⟩)
        · simp only [hl]
          by_cases hv : v ≤ cfg.minFreeDiskSpaceBytes
          · rw [if_pos hv]
            refine iff_of_false (by simp) ?_
            rintro (⟨e3, he⟩ | ⟨cfg2, hc2, hen, (⟨e3, he⟩ | ⟨v2, hv2, hlt⟩)⟩)
            · exact Except.noConfusion he
            · exact Except.noConfusion he
            · injection hc2 with hcfg2
              injection hv2 with hveq
              subst hcfg2
              subst hveq
              omega
          · rw [if_neg hv]
            exact iff_of_true (by trivial) (Or.inr ⟨cfg, rfl, ha, Or.inr ⟨v, rfl, by omega⟩⟩)
      · rw [if_pos ha]
        refine iff_of_false (by simp) ?_
        rintro (⟨e3, he⟩ | ⟨cfg2, hc2, hen, _⟩)
        · exact Except.noConfusion he
        · injection hc2 with hcfg2
          subst hcfg2
          exact ha hen
  · intro cfg v hcfg hload hle
    simp only [doesStoreMeetConstraints, hcfg]
    by_cases ha : cfg.adminStatus = "enabled"
    · rw [if_neg (fun hne => hne ha)]
      simp only [hload]
      rw [if_pos hle]
    · rw [if_pos ha]

/-- An environment whose configured store host is enabled but short on disk. -/
def envLowDisk : Env :=
  { envBase with
    cfgGet := fun _ _ _ _ => .ok ⟨"enabled", 100⟩,
    loadGet := fun _ _ _ _ => .ok 50 }

/-- Witness for C7: a host with no config and no metrics is eligible; a host
with reported free space below its configured minimum is excluded. -/
theorem c7_eligibility_fail_open_witness :
    doesStoreMeetConstraints envBase hA = true ∧
    doesStoreMeetConstraints envLowDisk hA = false :=
  ⟨(c7_eligibility_fail_open envBase hA).1.mpr (Or.inl ⟨"no config", rfl⟩),
   (c7_eligibility_fail_open envLowDisk hA).2 ⟨"enabled", 100⟩ 50 rfl rfl (by decide)⟩

/-- C9: with no topology distance map configured, the distance-constrained
selector returns the first `count` pool hosts verbatim with an empty event
trace — no distance query, no registry resolution, and no address parsing
(the result is `ok` even for malformed addresses). -/
theorem c9_degenerate_topology (p : Env) (service : String)
    (poolHosts sourceHosts : List HostInfo) (count minD maxD : Nat)
    (hnone : p.distMap = none) (hcount : count ≤ poolHosts.length) :
    pickHosts p service poolHosts sourceHosts count minD maxD
      = (.ok (poolHosts.take count), []) := by
  unfold pickHosts
  rw [hnone]
  show (if count ≤ poolHosts.length then _ else _) = _
  rw [if_pos hcount]

/-- Witness for C9: a malformed-address host is returned untouched. -/
theorem c9_degenerate_topology_witness :
    pickHosts envBase StoreServiceName [hBad, hA] [] 1 7 9 = (.ok [hBad], []) :=
  c9_degenerate_topology envBase StoreServiceName [hBad, hA] [] 1 7 9 rfl (by decide)

/-- An environment with two live store hosts and otherwise failing
collaborators. -/
def envC2 : Env := { envBase with rpmGetHosts := fun _ => .ok [hA, hB] }

/-- Counterexample for C2: two eligible store hosts and `count = 3` make
`PickStoreHosts` fail with the generic `errNoHosts` ("NoHealthyHosts"), not
with `errNoStoreHosts` ("NoStoreHostsAvailable") as the claim states. -/
theorem c2_counterexample :
    findEligibleStoreHosts envC2 = .ok [hA, hB] ∧
    ([hA, hB] : List HostInfo).length < 3 ∧
    PickStoreHosts envC2 rrZero 3 = (.err .noHosts, rrZero, []) ∧
    Err.noHosts ≠ Err.noStoreHosts :=
  ⟨rfl, by decide, rfl, by decide⟩

/-- C2 (amended): when `findEligibleStoreHosts` succeeds with fewer than
`count` hosts, `PickStoreHosts` fails with the generic `errNoHosts` error —
not the store-specific one — before any distance query is issued (the event
trace is empty) and with the counter table untouched. -/
theorem c2_short_pool_generic_error (p : Env) (rr : RRMap) (count : Nat)
    (hosts : List HostInfo) (helig : findEligibleStoreHosts p = .ok hosts)
    (hshort : hosts.length < count) :
    PickStoreHosts p rr count = (.err .noHosts, rr, []) := by
  unfold PickStoreHosts
  simp only [helig]
  rw [if_pos hshort]

/-- Witness for C2's amended claim. -/
theorem c2_short_pool_generic_error_witness :
    PickStoreHosts envC2 rrZero 3 = (.err .noHosts, rrZero, []) :=
  c2_short_pool_generic_error envC2 rrZero 3 [hA, hB] rfl (by decide)

/-! ### Helper lemmas: event traces -/

/-- `true` exactly on topology distance queries. -/
def isQueryEvent : Event → Bool
  | .query _ _ _ _ _ _ => true
  | _ => false

/-- Number of topology distance queries in a trace. -/
def countQueries (evs : List Event) : Nat := evs.countP isQueryEvent

theorem resolveAll_events (p : Env) (svc : String) (m : List (String × Int)) :
    ∀ (rs : List String), ∀ ev ∈ (resolveAll p svc m rs).2, ∃ s a, ev = .resolve s a := by
  intro rs
  induction rs with
  | nil => intro ev hev; cases hev
  | cons r rest ih =>
    intro ev hev
    rw [resolveAll.eq_2] at hev
    rcases hm : mapGet m r with _ | port
    · simp only [hm] at hev
      cases hev
    · simp only [hm] at hev
      rcases hf : p.rpmFindHostForAddr svc (r ++ ":" ++ toString port) with e | host
      · simp only [hf] at hev
        exact ⟨svc, r ++ ":" ++ toString port, List.mem_singleton.mp hev⟩
      · simp only [hf] at hev
        rcases hr : resolveAll p svc m rest with ⟨res, evs⟩
        simp only [hr] at hev
        have hev2 : ev ∈ Event.resolve svc (r ++ ":" ++ toString port) :: evs := by
          rcases res with a | e2 | s2 <;> exact hev
        rcases List.mem_cons.mp hev2 with rfl | hmem
        · exact ⟨svc, r ++ ":" ++ toString port, rfl⟩
        · have := ih ev
          rw [hr] at this
          exact this hmem

theorem pickHosts_events (p : Env) (svc : String) (pool src : List HostInfo)
    (cnt mn mx : Nat) :
    ∀ q ∈ (pickHosts p svc pool src cnt mn mx).2,
      (∃ s a, q = .resolve s a) ∨
      q = .query (toResources pool) (toResources src) "nic" cnt mn mx := by
  intro q hq
  unfold pickHosts at hq
  rcases hd : p.distMap with _ | dm
  · simp only [hd] at hq
    by_cases hcl : cnt ≤ pool.length
    · rw [if_pos hcl] at hq
      cases hq
    · rw [if_neg hcl] at hq
      cases hq
  · simp only [hd] at hq
    rcases hb : buildHostPortMap pool with s | m2
    · simp only [hb] at hq
      cases hq
    · simp only [hb] at hq
      rcases hf : dm.findResources (toResources pool) (toResources src) "nic" cnt mn mx
        with e | res
      · simp only [hf] at hq
        exact Or.inr (List.mem_singleton.mp hq)
      · simp only [hf] at hq
        rcases List.mem_cons.mp hq with rfl | hmem
        · exact Or.inr rfl
        · exact Or.inl (resolveAll_events p svc m2 res q hmem)

theorem query_band_of_mem {p : Env} {svc : String} {pool src : List HostInfo}
    {cnt mn mx : Nat} {q : Event} (hq : q ∈ (pickHosts p svc pool src cnt mn mx).2)
    {pool2 src2 : List String} {cls2 : String} {c2 mn2 mx2 : Nat}
    (heq : q = .query pool2 src2 cls2 c2 mn2 mx2) : mn2 = mn ∧ mx2 = mx := by
  rcases pickHosts_events p svc pool src cnt mn mx q hq with ⟨s, a, hr⟩ | hr
  · rw [heq] at hr
    exact Event.noConfusion hr
  · rw [heq] at hr
    injection hr with h1 h2 h3 h4 h5 h6
    exact ⟨h5, h6⟩

theorem cullFinish_trace (rr : RRMap) (sh : List HostInfo) (cnt : Nat) (evs : List Event) :
    (cullFinish rr sh cnt evs).2.2 = evs := by
  simp only [cullFinish]
  split <;> rfl

theorem pickStoreHosts_query_bands (p : Env) (rr : RRMap) (count : Nat) :
    ∀ q ∈ (PickStoreHosts p rr count).2.2, ∀ pool src cls c mnD mxD,
      q = Event.query pool src cls c mnD mxD →
      (mnD = normalizeMin p.cfg.minStoreToStoreDistance ∧
        mxD = normalizeMax (normalizeMin p.cfg.minStoreToStoreDistance)
          p.cfg.maxStoreToStoreDistance) ∨
      (mnD = normalizeMin p.cfg.minStoreToStoreFallbackDistance ∧
        mxD = normalizeMax (normalizeMin p.cfg.minStoreToStoreFallbackDistance)
          p.cfg.maxStoreToStoreFallbackDistance) := by
  intro q hq pool src cls c mnD mxD heq
  unfold PickStoreHosts at hq
  rcases he : findEligibleStoreHosts p with e | SH
  · simp only [he] at hq
    cases hq
  · simp only [he] at hq
    by_cases hlen : SH.length < count
    · rw [if_pos hlen] at hq
      cases hq
    · rw [if_neg hlen] at hq
      rcases hp1 : pickHosts p StoreServiceName SH [] count
          (normalizeMin p.cfg.minStoreToStoreDistance)
          (normalizeMax (normalizeMin p.cfg.minStoreToStoreDistance)
            p.cfg.maxStoreToStoreDistance) with ⟨res1, ev1⟩
      rw [hp1] at hq
      have hprim : q ∈ ev1 →
          ((mnD = normalizeMin p.cfg.minStoreToStoreDistance ∧
            mxD = normalizeMax (normalizeMin p.cfg.minStoreToStoreDistance)
              p.cfg.maxStoreToStoreDistance) ∨
          (mnD = normalizeMin p.cfg.minStoreToStoreFallbackDistance ∧
            mxD = normalizeMax (normalizeMin p.cfg.minStoreToStoreFallbackDistance)
              p.cfg.maxStoreToStoreFallbackDistance)) := fun hmem =>
        Or.inl (query_band_of_mem (by rw [hp1]; exact hmem) heq)
      rcases res1 with hosts1 | e1 | s1
      · exact hprim hq
      · simp only [] at hq
        by_cases hfb : p.cfg.minStoreToStoreFallbackDistance
            < normalizeMin p.cfg.minStoreToStoreDistance ∨
            p.cfg.maxStoreToStoreFallbackDistance
              > normalizeMax (normalizeMin p.cfg.minStoreToStoreDistance)
                p.cfg.maxStoreToStoreDistance
        · rw [if_pos hfb] at hq
          rcases hp2 : pickHosts p StoreServiceName SH [] count
              (normalizeMin p.cfg.minStoreToStoreFallbackDistance)
              (normalizeMax (normalizeMin p.cfg.minStoreToStoreFallbackDistance)
                p.cfg.maxStoreToStoreFallbackDistance) with ⟨res2, ev2⟩
          rw [hp2] at hq
          have hq2 : q ∈ ev1 ++ ev2 := by
            rcases res2 with hosts2 | e2 | s2
            · exact hq
            · rw [cullFinish_trace] at hq
              exact hq
            · exact hq
          rcases List.mem_append.mp hq2 with hmem | hmem
          · exact hprim hmem
          · exact Or.inr (query_band_of_mem (by rw [hp2]; exact hmem) heq)
        · rw [if_neg hfb, cullFinish_trace] at hq
          exact hprim hq
      · exact hprim hq

/-- C8: the store-to-store band normalization never leaves a zero lower
bound (a configured min ≤ `ZeroDistance` is promoted to `ZeroDistance + 1`),
promotes a degenerate/inverted upper bound to `InfiniteDistance`, and every
distance query `PickStoreHosts` ever issues carries either the normalized
primary band or the identically normalized fallback band. -/
theorem c8_distance_band_normalization :
    (∀ m : Nat, 0 < normalizeMin m) ∧
    (∀ m : Nat, m ≤ ZeroDistance → normalizeMin m = ZeroDistance + 1) ∧
    (∀ mn mx : Nat, mx ≤ mn → normalizeMax mn mx = InfiniteDistance) ∧
    (∀ (p : Env) (rr : RRMap) (count : Nat),
      ∀ q ∈ (PickStoreHosts p rr count).2.2, ∀ pool src cls c mnD mxD,
        q = Event.query pool src cls c mnD mxD →
        (mnD = normalizeMin p.cfg.minStoreToStoreDistance ∧
          mxD = normalizeMax (normalizeMin p.cfg.minStoreToStoreDistance)
            p.cfg.maxStoreToStoreDistance) ∨
        (mnD = normalizeMin p.cfg.minStoreToStoreFallbackDistance ∧
          mxD = normalizeMax (normalizeMin p.cfg.minStoreToStoreFallbackDistance)
            p.cfg.maxStoreToStoreFallbackDistance)) := by
  refine ⟨?_, ?_, ?_, pickStoreHosts_query_bands⟩
  · intro m
    unfold normalizeMin ZeroDistance
    split <;> omega
  · intro m h
    unfold normalizeMin
    rw [if_pos h]
  · intro mn mx h
    unfold normalizeMax
    rw [if_pos h]

/-- A store-to-store band (1,3) with fallback band (2,3): the fallback
differs from the primary but neither extends below its min nor above its
max. -/
def cfgC3 : ControllerConfig :=
  { cfg0 with
    minStoreToStoreDistance := 1
    maxStoreToStoreDistance := 3
    minStoreToStoreFallbackDistance := 2
    maxStoreToStoreFallbackDistance := 3 }

/-- A topology map whose every query fails. -/
def dmFail : DistMap := ⟨fun _ _ _ _ _ _ => .error "dist"⟩

/-- Environment with two live store hosts, a failing topology map, and the
`cfgC3` bands. -/
def envC3 : Env :=
  { envBase with
    distMap := some dmFail
    rpmGetHosts := fun _ => .ok [hA, hB]
    cfg := cfgC3 }

/-- Witness for C8: normalization at concrete inputs, and the band of a
concrete issued query. -/
theorem c8_distance_band_normalization_witness :
    normalizeMin 0 = ZeroDistance + 1 ∧
    normalizeMax 5 3 = InfiniteDistance ∧
    ((1 = normalizeMin envC3.cfg.minStoreToStoreDistance ∧
      3 = normalizeMax (normalizeMin envC3.cfg.minStoreToStoreDistance)
        envC3.cfg.maxStoreToStoreDistance) ∨
     (1 = normalizeMin envC3.cfg.minStoreToStoreFallbackDistance ∧
      3 = normalizeMax (normalizeMin envC3.cfg.minStoreToStoreFallbackDistance)
        envC3.cfg.maxStoreToStoreFallbackDistance)) :=
  ⟨c8_distance_band_normalization.2.1 0 (by decide),
   c8_distance_band_normalization.2.2.1 5 3 (by decide),
   c8_distance_band_normalization.2.2.2 envC3 rrZero 1
     (.query ["10.0.0.1", "10.0.0.2"] [] "nic" 1 1 3) (by decide)
     ["10.0.0.1", "10.0.0.2"] [] "nic" 1 1 3 rfl⟩

/-! ### Helper lemmas: the store fallback retry -/

theorem pickHosts_err_dm (p : Env) (svc : String) (pool src : List HostInfo)
    (cnt mn mx : Nat) (e : Err) (ev : List Event)
    (h : pickHosts p svc pool src cnt mn mx = (.err e, ev)) :
    ∃ dm m2, p.distMap = some dm ∧ buildHostPortMap pool = .ok m2 := by
  unfold pickHosts at h
  rcases hd : p.distMap with _ | dm
  · simp only [hd] at h
    split at h <;> simp at h
  · simp only [hd] at h
    rcases hb : buildHostPortMap pool with s | m2
    · simp only [hb] at h
      simp at h
    · exact ⟨dm, m2, rfl, rfl⟩

theorem countQueries_resolveAll (p : Env) (svc : String) (m2 : List (String × Int))
    (rs : List String) : countQueries (resolveAll p svc m2 rs).2 = 0 := by
  unfold countQueries
  refine List.countP_eq_zero.mpr ?_
  intro ev hev
  obtain ⟨s, a, rfl⟩ := resolveAll_events p svc m2 rs ev hev
  simp [isQueryEvent]

theorem pickHosts_queries_of_dm (p : Env) (svc : String) (pool src : List HostInfo)
    (cnt mn mx : Nat) (dm : DistMap) (m2 : List (String × Int))
    (res : Outcome (List HostInfo)) (ev : List Event)
    (hd : p.distMap = some dm) (hb : buildHostPortMap pool = .ok m2)
    (h : pickHosts p svc pool src cnt mn mx = (res, ev)) :
    countQueries ev = 1 := by
  unfold pickHosts at h
  simp only [hd, hb] at h
  rcases hf : dm.findResources (toResources pool) (toResources src) "nic" cnt mn mx
    with e2 | rs
  · simp only [hf] at h
    injection h with h1 h2
    rw [← h2]
    simp [countQueries, List.countP_cons, isQueryEvent]
  · simp only [hf] at h
    injection h with h1 h2
    rw [← h2]
    show countQueries (Event.query _ _ _ _ _ _ :: (resolveAll p svc m2 rs).2) = 1
    unfold countQueries
    rw [List.countP_cons]
    have h0 := countQueries_resolveAll p svc m2 rs
    unfold countQueries at h0
    rw [h0]
    simp [isQueryEvent]

/-- Counterexample for C3: with primary band (1,3) and fallback band (2,3)
— bands that differ — a failing primary attempt triggers no retry: exactly
one distance query is issued and the call proceeds to fairness culling. -/
theorem c3_counterexample :
    (envC3.cfg.minStoreToStoreFallbackDistance, envC3.cfg.maxStoreToStoreFallbackDistance)
      ≠ (envC3.cfg.minStoreToStoreDistance, envC3.cfg.maxStoreToStoreDistance) ∧
    (pickHosts envC3 StoreServiceName [hA, hB] [] 1
        (normalizeMin envC3.cfg.minStoreToStoreDistance)
        (normalizeMax (normalizeMin envC3.cfg.minStoreToStoreDistance)
          envC3.cfg.maxStoreToStoreDistance)).1
      = .err (.collab "dist") ∧
    countQueries (PickStoreHosts envC3 rrZero 1).2.2 = 1 ∧
    (PickStoreHosts envC3 rrZero 1).1 = .ok [hA] :=
  ⟨by decide, by decide, by decide, by decide⟩

/-- C3 (amended): after a failed primary distance attempt, exactly one retry
is performed if and only if the raw configured fallback band extends below
the normalized primary minimum or above the normalized primary maximum; the
retry uses the normalized fallback band, and otherwise (or when the retry
also fails) the call proceeds directly to fairness culling. -/
theorem c3_fallback_retry_condition (p : Env) (rr : RRMap) (count : Nat)
    (storeHosts : List HostInfo) (e : Err) (ev1 : List Event)
    (helig : findEligibleStoreHosts p = .ok storeHosts)
    (hlen : ¬ storeHosts.length < count)
    (hfail : pickHosts p StoreServiceName storeHosts [] count
        (normalizeMin p.cfg.minStoreToStoreDistance)
        (normalizeMax (normalizeMin p.cfg.minStoreToStoreDistance)
          p.cfg.maxStoreToStoreDistance) = (.err e, ev1)) :
    countQueries ev1 = 1 ∧
    (¬ (p.cfg.minStoreToStoreFallbackDistance < normalizeMin p.cfg.minStoreToStoreDistance ∨
        p.cfg.maxStoreToStoreFallbackDistance
          > normalizeMax (normalizeMin p.cfg.minStoreToStoreDistance)
            p.cfg.maxStoreToStoreDistance) →
      PickStoreHosts p rr count = cullFinish rr storeHosts count ev1) ∧
    ((p.cfg.minStoreToStoreFallbackDistance < normalizeMin p.cfg.minStoreToStoreDistance ∨
        p.cfg.maxStoreToStoreFallbackDistance
          > normalizeMax (normalizeMin p.cfg.minStoreToStoreDistance)
            p.cfg.maxStoreToStoreDistance) →
      ∀ res2 ev2, pickHosts p StoreServiceName storeHosts [] count
          (normalizeMin p.cfg.minStoreToStoreFallbackDistance)
          (normalizeMax (normalizeMin p.cfg.minStoreToStoreFallbackDistance)
            p.cfg.maxStoreToStoreFallbackDistance) = (res2, ev2) →
        countQueries ev2 = 1 ∧
        PickStoreHosts p rr count = (match res2 with
          | .ok hosts => (.ok hosts, rr, ev1 ++ ev2)
          | .panic s => (.panic s, rr, ev1 ++ ev2)
          | .err _ => cullFinish rr storeHosts count (ev1 ++ ev2))) := by
  obtain ⟨dm, m2, hd, hb⟩ := pickHosts_err_dm p StoreServiceName storeHosts [] count _ _ e ev1 hfail
  refine ⟨pickHosts_queries_of_dm p StoreServiceName storeHosts [] count _ _ dm m2 _ ev1
    hd hb hfail, ?_, ?_⟩
  · intro hnfb
    unfold PickStoreHosts
    simp only [helig]
    rw [if_neg hlen]
    simp only [hfail]
    rw [if_neg hnfb]
  · intro hfb res2 ev2 hp2
    refine ⟨pickHosts_queries_of_dm p StoreServiceName storeHosts [] count _ _ dm m2 res2 ev2
      hd hb hp2, ?_⟩
    unfold PickStoreHosts
    simp only [helig]
    rw [if_neg hlen]
    simp only [hfail]
    rw [if_pos hfb]
    simp only [hp2]
    rcases res2 with h2 | e2 | s2 <;> rfl

/-- Witness for C3's amended claim: at `envC3` the retry condition is false
and the call proceeds to culling after one query. -/
theorem c3_fallback_retry_condition_witness :
    countQueries [Event.query ["10.0.0.1", "10.0.0.2"] [] "nic" 1 1 3] = 1 ∧
    PickStoreHosts envC3 rrZero 1
      = cullFinish rrZero [hA, hB] 1 [Event.query ["10.0.0.1", "10.0.0.2"] [] "nic" 1 1 3] := by
  have h := c3_fallback_retry_condition envC3 rrZero 1 [hA, hB] (.collab "dist")
    [Event.query ["10.0.0.1", "10.0.0.2"] [] "nic" 1 1 3] rfl (by decide) (by decide)
  exact ⟨h.1, h.2.1 (by decide)⟩

/-! ### Helper lemmas: resolution of distance-query results -/

theorem resolveAll_ok_mem (p : Env) (svc : String) (m : List (String × Int)) :
    ∀ (rs : List String) (hosts : List HostInfo) (evs : List Event),
      resolveAll p svc m rs = (.ok hosts, evs) →
      ∀ x ∈ hosts, ∃ r ∈ rs, ∃ port : Int, mapGet m r = some port ∧
        p.rpmFindHostForAddr svc (r ++ ":" ++ toString port) = .ok x := by
  intro rs
  induction rs with
  | nil =>
    intro hosts evs h x hx
    rw [resolveAll.eq_1] at h
    injection h with h1 h2
    injection h1 with h3
    rw [← h3] at hx
    cases hx
  | cons r rest ih =>
    intro hosts evs h x hx
    rw [resolveAll.eq_2] at h
    rcases hm : mapGet m r with _ | port
    · simp only [hm] at h
      simp at h
    · simp only [hm] at h
      rcases hf : p.rpmFindHostForAddr svc (r ++ ":" ++ toString port) with e | host
      · simp only [hf] at h
        simp at h
      · simp only [hf] at h
        rcases hr : resolveAll p svc m rest with ⟨ra, revs⟩
        rw [hr] at h
        rcases ra with hs | e2 | s2
        · injection h with h1 h2
          injection h1 with h3
          rw [← h3] at hx
          rcases List.mem_cons.mp hx with rfl | hx2
          · exact ⟨r, List.mem_cons_self r rest, port, hm, hf⟩
          · obtain ⟨r2, hr2, port2, hm2, hf2⟩ := ih hs revs hr x hx2
            exact ⟨r2, List.mem_cons_of_mem r hr2, port2, hm2, hf2⟩
        · simp at h
        · simp at h

theorem resolveAll_ok_spec (p : Env) (svc : String) (m : List (String × Int))
    (hinj : ∀ (r1 r2 : String) (n1 n2 : Int) (x : HostInfo),
      p.rpmFindHostForAddr svc (r1 ++ ":" ++ toString n1) = .ok x →
      p.rpmFindHostForAddr svc (r2 ++ ":" ++ toString n2) = .ok x → r1 = r2) :
    ∀ (rs : List String), rs.Nodup →
      ∀ hosts evs, resolveAll p svc m rs = (.ok hosts, evs) →
        hosts.length = rs.length ∧ hosts.Nodup := by
  intro rs
  induction rs with
  | nil =>
    intro _ hosts evs h
    rw [resolveAll.eq_1] at h
    injection h with h1 h2
    injection h1 with h3
    rw [← h3]
    exact ⟨rfl, List.nodup_nil⟩
  | cons r rest ih =>
    intro hnd hosts evs h
    rw [resolveAll.eq_2] at h
    rcases hm : mapGet m r with _ | port
    · simp only [hm] at h
      simp at h
    · simp only [hm] at h
      rcases hf : p.rpmFindHostForAddr svc (r ++ ":" ++ toString port) with e | host
      · simp only [hf] at h
        simp at h
      · simp only [hf] at h
        rcases hr : resolveAll p svc m rest with ⟨ra, revs⟩
        rw [hr] at h
        rcases ra with hs | e2 | s2
        · injection h with h1 h2
          injection h1 with h3
          obtain ⟨hl, hn⟩ := ih (List.nodup_cons.mp hnd).2 hs revs hr
          rw [← h3]
          refine ⟨by rw [List.length_cons, List.length_cons, hl], ?_⟩
          refine List.nodup_cons.mpr ⟨?_, hn⟩
          intro hmem
          obtain ⟨r2, hr2, port2, hm2, hf2⟩ := resolveAll_ok_mem p svc m rest hs revs hr
            host hmem
          have : r = r2 := hinj r r2 port port2 host hf hf2
          rw [this] at hnd
          exact (List.nodup_cons.mp hnd).1 hr2
        · simp at h
        · simp at h

theorem pickHosts_ok_spec (p : Env) (svc : String) (pool src : List HostInfo)
    (cnt mn mx : Nat) (hosts : List HostInfo) (ev : List Event)
    (hpool : pool.Nodup)
    (hfind : ∀ dm, p.distMap = some dm → ∀ P S cl c a b res,
      dm.findResources P S cl c a b = .ok res → res.length = c ∧ res.Nodup)
    (hinj : ∀ (r1 r2 : String) (n1 n2 : Int) (x : HostInfo),
      p.rpmFindHostForAddr svc (r1 ++ ":" ++ toString n1) = .ok x →
      p.rpmFindHostForAddr svc (r2 ++ ":" ++ toString n2) = .ok x → r1 = r2)
    (hok : pickHosts p svc pool src cnt mn mx = (.ok hosts, ev)) :
    hosts.length = cnt ∧ hosts.Nodup := by
  unfold pickHosts at hok
  rcases hd : p.distMap with _ | dm
  · simp only [hd] at hok
    by_cases hcl : cnt ≤ pool.length
    · rw [if_pos hcl] at hok
      injection hok with h1 h2
      injection h1 with h3
      rw [← h3]
      exact ⟨take_length_of_le pool cnt hcl,
        List.Nodup.sublist (List.take_sublist cnt pool) hpool⟩
    · rw [if_neg hcl] at hok
      simp at hok
  · simp only [hd] at hok
    rcases hb : buildHostPortMap pool with s | m2
    · simp only [hb] at hok
      simp at hok
    · simp only [hb] at hok
      rcases hf : dm.findResources (toResources pool) (toResources src) "nic" cnt mn mx
        with e | res
      · simp only [hf] at hok
        simp at hok
      · simp only [hf] at hok
        rcases hra : resolveAll p svc m2 res with ⟨ra, revs⟩
        rw [hra] at hok
        injection hok with h1 h2
        obtain ⟨hlen_res, hnd_res⟩ := hfind dm hd _ _ _ _ _ _ _ hf
        have h1a : ra = Outcome.ok hosts := h1
        obtain ⟨hl, hn⟩ := resolveAll_ok_spec p svc m2 hinj res hnd_res hosts revs
          (by rw [hra, h1a])
        exact ⟨by rw [hl, hlen_res], hn⟩

theorem findEligibleStoreHosts_nodup (p : Env)
    (hreg : ∀ hosts, p.rpmGetHosts StoreServiceName = .ok hosts → hosts.Nodup) :
    ∀ sh, findEligibleStoreHosts p = .ok sh → sh.Nodup := by
  intro sh h
  unfold findEligibleStoreHosts at h
  rcases hg : p.rpmGetHosts StoreServiceName with e | hosts
  · simp only [hg] at h
    simp at h
  · simp only [hg] at h
    split at h
    · simp at h
    · injection h with h1
      rw [← h1]
      exact List.Nodup.filter _ (hreg hosts hg)

theorem cullFinish_ok (rr : RRMap) (sh : List HostInfo) (cnt : Nat) (evs : List Event)
    (hosts : List HostInfo) (rr2 : RRMap) (ev2 : List Event)
    (h : cullFinish rr sh cnt evs = (.ok hosts, rr2, ev2)) :
    hosts = (roundRobinCull rr (sh.map some) cnt).1 ∧
    (roundRobinCull rr (sh.map some) cnt).1.length = cnt := by
  simp only [cullFinish] at h
  by_cases hc : (roundRobinCull rr (sh.map some) cnt).1.length = cnt
  · rw [if_pos hc] at h
    injection h with h1 h2
    injection h1 with h3
    exact ⟨h3.symm, hc⟩
  · rw [if_neg hc] at h
    simp at h

theorem cull_output_nodup (rr : RRMap) (P : List HostInfo) (cnt : Nat) (hP : P.Nodup)
    (hlen : (roundRobinCull rr (P.map some) cnt).1.length = cnt) :
    (roundRobinCull rr (P.map some) cnt).1.Nodup := by
  cases cnt with
  | zero =>
    rw [List.length_eq_zero.mp hlen]
    exact List.nodup_nil
  | succ m =>
    have hperm := roundRobinCull_perm_success rr (P.map some) (m + 1) (Nat.succ_pos m) hlen
    rw [filterMap_map_some] at hperm
    exact List.Nodup.of_append_left (hperm.nodup hP)

/-- C1: under the collaborator contracts — the registry lists pairwise
distinct hosts, the topology service returns exactly `count` pairwise
distinct pool resources on success, and address resolution is injective on
the resource part — every successful `PickStoreHosts(count)` call, through
any of its paths (degenerate topology, primary band, fallback band,
fairness cull), returns exactly `count` pairwise-distinct hosts; every
failing call returns an error and no hosts (the `Outcome.err` arm carries
no host list, as every error return in the source returns `nil`). -/
theorem c1_store_count_distinct (p : Env) (rr : RRMap) (count : Nat)
    (hreg : ∀ hosts, p.rpmGetHosts StoreServiceName = .ok hosts → hosts.Nodup)
    (hfind : ∀ dm, p.distMap = some dm → ∀ P S cl c a b res,
      dm.findResources P S cl c a b = .ok res → res.length = c ∧ res.Nodup)
    (hinj : ∀ (r1 r2 : String) (n1 n2 : Int) (x : HostInfo),
      p.rpmFindHostForAddr StoreServiceName (r1 ++ ":" ++ toString n1) = .ok x →
      p.rpmFindHostForAddr StoreServiceName (r2 ++ ":" ++ toString n2) = .ok x → r1 = r2) :
    ∀ hosts rr2 ev, PickStoreHosts p rr count = (.ok hosts, rr2, ev) →
      hosts.length = count ∧ hosts.Nodup := by
  intro hosts rr2 ev h
  unfold PickStoreHosts at h
  rcases he : findEligibleStoreHosts p with e | SH
  · simp only [he] at h
    simp at h
  · simp only [he] at h
    have hSH : SH.Nodup := findEligibleStoreHosts_nodup p hreg SH he
    by_cases hlen : SH.length < count
    · rw [if_pos hlen] at h
      simp at h
    · rw [if_neg hlen] at h
      rcases hp1 : pickHosts p StoreServiceName SH [] count
          (normalizeMin p.cfg.minStoreToStoreDistance)
          (normalizeMax (normalizeMin p.cfg.minStoreToStoreDistance)
            p.cfg.maxStoreToStoreDistance) with ⟨res1, ev1⟩
      rw [hp1] at h
      rcases res1 with hs1 | e1 | s1
      · injection h with h1 h2
        injection h1 with h3
        refine pickHosts_ok_spec p StoreServiceName SH [] count
          (normalizeMin p.cfg.minStoreToStoreDistance)
          (normalizeMax (normalizeMin p.cfg.minStoreToStoreDistance)
            p.cfg.maxStoreToStoreDistance) hosts ev1 hSH hfind hinj ?_
        rw [hp1, h3]
      · simp only [] at h
        by_cases hfb : p.cfg.minStoreToStoreFallbackDistance
            < normalizeMin p.cfg.minStoreToStoreDistance ∨
            p.cfg.maxStoreToStoreFallbackDistance
              > normalizeMax (normalizeMin p.cfg.minStoreToStoreDistance)
                p.cfg.maxStoreToStoreDistance
        · rw [if_pos hfb] at h
          rcases hp2 : pickHosts p StoreServiceName SH [] count
              (normalizeMin p.cfg.minStoreToStoreFallbackDistance)
              (normalizeMax (normalizeMin p.cfg.minStoreToStoreFallbackDistance)
                p.cfg.maxStoreToStoreFallbackDistance) with ⟨res2, ev2⟩
          rw [hp2] at h
          rcases res2 with hs2 | e2 | s2
          · injection h with h1 h2
            injection h1 with h3
            refine pickHosts_ok_spec p StoreServiceName SH [] count
              (normalizeMin p.cfg.minStoreToStoreFallbackDistance)
              (normalizeMax (normalizeMin p.cfg.minStoreToStoreFallbackDistance)
                p.cfg.maxStoreToStoreFallbackDistance) hosts ev2 hSH hfind hinj ?_
            rw [hp2, h3]
          · obtain ⟨h3, h4⟩ := cullFinish_ok _ _ _ _ _ _ _ h
            rw [h3]
            exact ⟨h4, cull_output_nodup rr SH count hSH h4⟩
          · simp at h
        · rw [if_neg hfb] at h
          obtain ⟨h3, h4⟩ := cullFinish_ok _ _ _ _ _ _ _ h
          rw [h3]
          exact ⟨h4, cull_output_nodup rr SH count hSH h4⟩
      · simp at h

/-- Witness for C1 at a concrete environment (degenerate-topology path). -/
theorem c1_store_count_distinct_witness :
    PickStoreHosts envC2 rrZero 1 = (.ok [hA], rrZero, []) ∧
    ([hA] : List HostInfo).length = 1 ∧ ([hA] : List HostInfo).Nodup := by
  have happ := c1_store_count_distinct envC2 rrZero 1
    (fun hosts hh => by injection hh with h1; rw [← h1]; decide)
    (fun dm hdm => nomatch hdm)
    (fun r1 r2 n1 n2 x h1 h2 => nomatch h1)
    [hA] rrZero [] rfl
  exact ⟨rfl, happ.1, happ.2⟩

end Placement
